import Mathlib

/-!
Verification of the ConMol card-sequence programs.

This file gives a shallow embedding, in Lean, of the parts of the C
sources that the checked claims are about:

* `bit_utilities.c`   : `bit_has_unique_subsequences`, `bit_get_integer_seq`,
                        `bit_count_set_bits`
* `dbn_de_bruijn.c`   : the depth-first primitive generator `dbn_next`
* `f64_seq.c`         : `f64_next` stream semantics
* `ultimate_search.c` : the outer red loop, `has_long_uniform_subsequence`,
                        `search_for_c4t_sequence`
* `deck_utilities.c`  : `deck_get_dup_count_score`
* `umake_decks.c`     : `get_deck_possibilities`,
                        `test_deck_for_special_sequences`, `get_deck_score`,
                        `find_best_deck_order`, and the per-record validation
                        of `umake_decks_main`

Machine integers are modelled as `Nat`.  The C code computes on `uint64_t`;
every value manipulated below stays below `2 ^ 64` on the executions the
theorems speak about, and the few places where C wraparound could occur on
other executions are noted next to the definitions.
-/

namespace ConMol

/-! ## Bit kernel (`bit_utilities.c`) -/

/-- Replicate the low 5 bits of a 52-bit sequence above bit 51, exactly as
`bit_has_unique_subsequences` does:  `seq | ((seq & 31) << 52)`. -/
def extSeq (s : Nat) : Nat := s ||| ((s &&& 31) <<< 52)

/-- Window read the way every scanning loop in the C code reads it: the low
6 bits of `x >>> i`. -/
def winOf (x i : Nat) : Nat := (x >>> i) &&& 63

/-- Cyclic length-6 window of the 52-bit sequence `s` starting at bit
position `i`: bits `i, i+1, …, i+5` of `s`, indices taken modulo 52.  This
is the specification-level notion of a window; it is realised here by
doubling the sequence (`s | (s << 52)`), which agrees with the modular
description for `s < 2^52` and `i < 52`. -/
def cyclWin (s i : Nat) : Nat := ((s ||| (s <<< 52)) >>> i) &&& 63

/-- One pass of the scanning loop of `bit_has_unique_subsequences`:
`n` iterations; each iteration forms `subseq_bit = 1 << (seq & 63)`, fails
if that bit is already present in the store, then marks it and shifts. -/
def buLoop : Nat → Nat → Nat → Bool
  | 0, _, _ => true
  | n + 1, seq, store =>
    let b := 1 <<< (seq &&& 63)
    if store &&& b == 0 then buLoop n (seq >>> 1) (store ||| b) else false

/-- Model of `bit_has_unique_subsequences` (bit_utilities.c, lines 79-100):
extend the sequence with the 5-bit wrap and slide a 6-bit mask 52 times,
failing as soon as a window value recurs. -/
def bit_has_unique_subsequences (s : Nat) : Bool := buLoop 52 (extSeq s) 0

/-- Scanning loop of `has_long_uniform_subsequence`: `n` windows of `w`;
report true as soon as a window is all ones (`(wseq & 63) == 63`) or all
zeros (in C `((~wseq) & 63) == 63`, which for the low 6 bits is exactly
`(wseq & 63) == 0`). -/
def hlLoop : Nat → Nat → Bool
  | 0, _ => false
  | n + 1, w =>
    if (w &&& 63) == 63 || (w &&& 63) == 0 then true else hlLoop n (w >>> 1)

/-- Model of `has_long_uniform_subsequence` (ultimate_search.c, lines
1806-1825): `wseq = seq | (seq << 52)`, then 52 sliding windows. -/
def has_long_uniform_subsequence (s : Nat) : Bool := hlLoop 52 (s ||| (s <<< 52))

/-- Kernighan loop with explicit fuel; `v &&& (v - 1)` clears the lowest
set bit, so `fuel ≥ v` always suffices. -/
def bcsbAux : Nat → Nat → Nat
  | 0, _ => 0
  | f + 1, v => if v = 0 then 0 else bcsbAux f (v &&& (v - 1)) + 1

/-- Model of `bit_count_set_bits` (bit_utilities.c): Kernighan's loop,
clearing the lowest set bit until the value is zero. -/
def bit_count_set_bits (v : Nat) : Nat := bcsbAux v v

/-- Binary population count with explicit fuel (`fuel ≥ n` suffices). -/
def pcountAux : Nat → Nat → Nat
  | 0, _ => 0
  | f + 1, n => if n = 0 then 0 else pcountAux f (n / 2) + n % 2

/-- Binary population count, used as the mathematical reference for
`bit_count_set_bits`. -/
def pcount (n : Nat) : Nat := pcountAux n n

/-- Model of `bit_get_integer_seq` (bit_utilities.c): fold a list of binary
digits MSB-first into an integer. -/
def bit_get_integer_seq (l : List Nat) : Nat :=
  l.foldl (fun acc d => 2 * acc + (if d = 1 then 1 else 0)) 0

/-! ### Generic facts about the scanning loops -/

theorem winOf_lt (x i : Nat) : winOf x i < 64 :=
  Nat.lt_of_le_of_lt Nat.and_le_right (by norm_num)

theorem winOf_shiftRight (x i j : Nat) : winOf (x >>> i) j = winOf x (i + j) := by
  simp [winOf, Nat.shiftRight_add]

theorem and_one_shiftLeft_eq_zero (store idx : Nat) :
    (store &&& (1 <<< idx) == 0) = !store.testBit idx := by
  rw [Nat.one_shiftLeft, Nat.and_two_pow]
  cases h : store.testBit idx
  · simp
  · have h2 : (1 : Nat) * 2 ^ idx ≠ 0 := by positivity
    simp [h2]

theorem testBit_or_one_shiftLeft (store idx w : Nat) :
    (store ||| (1 <<< idx)).testBit w = (store.testBit w || decide (idx = w)) := by
  rw [Nat.one_shiftLeft, Nat.testBit_or, Nat.testBit_two_pow]

theorem winOf_shiftRight_one (x j : Nat) : winOf (x >>> 1) j = winOf x (j + 1) := by
  rw [winOf, winOf, ← Nat.shiftRight_add, Nat.add_comm]

theorem forall_lt_succ_shift {P : Nat → Prop} (n : Nat) :
    (∀ i < n + 1, P i) ↔ (P 0 ∧ ∀ i < n, P (i + 1)) := by
  constructor
  · exact fun h => ⟨h 0 (Nat.succ_pos n), fun i hi => h (i + 1) (by omega)⟩
  · rintro ⟨h0, hs⟩ i hi
    cases i with
    | zero => exact h0
    | succ i => exact hs i (by omega)

/-- Characterisation of the scanning loop: it returns `true` iff the first
`n` windows of `seq` are pairwise distinct and none of them is already
present in the incoming store. -/
theorem buLoop_eq_true_iff (n : Nat) : ∀ seq store : Nat,
    buLoop n seq store = true ↔
      (∀ i < n, (∀ j < i, winOf seq j ≠ winOf seq i) ∧
        store.testBit (winOf seq i) = false) := by
  induction n with
  | zero => intro seq store; simp [buLoop]
  | succ n ih =>
    intro seq store
    have hw0 : seq &&& 63 = winOf seq 0 := by simp [winOf]
    rw [buLoop]
    simp only [hw0, and_one_shiftLeft_eq_zero]
    cases hbit : store.testBit (winOf seq 0)
    · rw [Bool.not_false, if_pos rfl, ih]
      rw [forall_lt_succ_shift]
      have key : ∀ i, ((∀ j < i, winOf (seq >>> 1) j ≠ winOf (seq >>> 1) i) ∧
            (store ||| 1 <<< winOf seq 0).testBit (winOf (seq >>> 1) i) = false) ↔
          ((∀ j < i + 1, winOf seq j ≠ winOf seq (i + 1)) ∧
            store.testBit (winOf seq (i + 1)) = false) := by
        intro i
        rw [testBit_or_one_shiftLeft]
        simp only [winOf_shiftRight_one, Bool.or_eq_false_iff, decide_eq_false_iff_not]
        rw [forall_lt_succ_shift (P := fun j => winOf seq j ≠ winOf seq (i + 1))]
        constructor
        · rintro ⟨hd, hs, hne⟩
          exact ⟨⟨hne, fun j hj => hd j hj⟩, hs⟩
        · rintro ⟨⟨hne, hd⟩, hs⟩
          exact ⟨fun j hj => hd j hj, hs, hne⟩
      constructor
      · intro h
        refine ⟨⟨fun j hj => absurd hj (by omega), hbit⟩, fun i hi => ?_⟩
        exact (key i).mp (h i hi)
      · rintro ⟨_, hs⟩ i hi
        exact (key i).mpr (hs i hi)
    · rw [Bool.not_true, if_neg (by simp)]
      constructor
      · intro h; exact absurd h (by simp)
      · intro h
        have := (h 0 (Nat.succ_pos n)).2
        rw [hbit] at this
        exact absurd this (by simp)

/-! ### Windows of the extended sequence versus cyclic windows -/

theorem winOf_extSeq_eq_cyclWin {s i : Nat} (hi : i < 52) :
    winOf (extSeq s) i = cyclWin s i := by
  unfold winOf cyclWin extSeq
  apply Nat.eq_of_testBit_eq
  intro u
  have h63 : (63 : Nat) = 2 ^ 6 - 1 := by norm_num
  have h31 : (31 : Nat) = 2 ^ 5 - 1 := by norm_num
  simp only [h63, h31, Nat.testBit_and, Nat.testBit_two_pow_sub_one, Nat.testBit_shiftRight,
    Nat.testBit_or, Nat.testBit_shiftLeft]
  rcases Nat.lt_or_ge (i + u) 52 with h | h
  · simp [show ¬(52 ≤ i + u) from by omega]
  · rcases Nat.lt_or_ge u 6 with hu | hu
    · have h5 : i + u - 52 < 5 := by omega
      simp [show 52 ≤ i + u from h, h5]
    · simp [show ¬(u < 6) from by omega]

/-- Pairwise distinctness of the 52 cyclic length-6 windows of a 52-bit
sequence, exactly as the specification phrases bracelet validity. -/
def cyclWinsDistinct (s : Nat) : Prop :=
  ∀ i < 52, ∀ j < 52, i ≠ j → cyclWin s i ≠ cyclWin s j

theorem bit_has_unique_subsequences_eq_true_iff (s : Nat) :
    bit_has_unique_subsequences s = true ↔
      ∀ i < 52, ∀ j < i, winOf (extSeq s) j ≠ winOf (extSeq s) i := by
  rw [bit_has_unique_subsequences, buLoop_eq_true_iff]
  constructor
  · intro h i hi j hj; exact (h i hi).1 j hj
  · intro h i hi; exact ⟨h i hi, Nat.zero_testBit _⟩

/-- C1.  For every 52-bit sequence `s` (low 52 bits of a u64),
`bit_has_unique_subsequences s` returns true iff the 52 cyclically
consecutive length-6 windows of `s` (window `i` starting at bit position
`i`, for every `i < 52`) are pairwise distinct 6-bit codes. -/
theorem C1_bit_has_unique_subsequences_iff_windows_distinct
    (s : Nat) (_hs : s < 2 ^ 52) :
    bit_has_unique_subsequences s = true ↔ cyclWinsDistinct s := by
  rw [bit_has_unique_subsequences_eq_true_iff]
  have hw : ∀ i, i < 52 → winOf (extSeq s) i = cyclWin s i := fun i hi =>
    winOf_extSeq_eq_cyclWin hi
  constructor
  · intro h i hi j hj hne
    rcases Nat.lt_or_ge j i with hji | hij
    · have := h i hi j hji
      rw [hw j (by omega), hw i hi] at this
      exact fun hc => this hc.symm
    · have := h j hj i (by omega)
      rw [hw i hi, hw j hj] at this
      exact this
  · intro h i hi j hj
    have := h j (by omega) i hi (by omega)
    rw [hw j (by omega), hw i hi]
    exact this

/-- Witness for C1 at a concrete bracelet-valid input. -/
theorem C1_witness :
    (0x218a393d5dbf : Nat) < 2 ^ 52 ∧
      (bit_has_unique_subsequences 0x218a393d5dbf = true ↔
        cyclWinsDistinct 0x218a393d5dbf) :=
  ⟨by norm_num,
    C1_bit_has_unique_subsequences_iff_windows_distinct 0x218a393d5dbf (by norm_num)⟩

/-! ## Sequence cache stream (`f64_seq.c`) and the outer red loop (C7, C10) -/

/-- The mask `(1LL << n_bits_max) - 1` with `n_bits_max = 52`
(ultimate_search.c, line 539). -/
def mask52 : Nat := (1 <<< 52) - 1

/-- Semantics of `f64_next` (f64_seq.c, lines 332-345): while the cursor is
inside the loaded array the next value is returned and the cursor advances;
past the end the function returns 0 forever.  The list holds the values not
yet read through this handle; an exhausted handle reads from `[]`. -/
def f64_next : List Nat → Nat × List Nat
  | [] => (0, [])
  | v :: r => (v, r)

/-- Exit condition of the red do-while loop in `ultimate_search_main`
(ultimate_search.c, lines 560-564): the loop keeps drawing while
`has_long_uniform_subsequence(red) || red == 0`, so it stops at the first
value with neither property. -/
def redAccept (v : Nat) : Bool := !has_long_uniform_subsequence v && v != 0

/-- The red fetch loop of `ultimate_search_main`: repeatedly call
`f64_next` until a value satisfies `redAccept`.  Once the remaining stream
is exhausted, `f64_next` returns 0 forever and `redAccept 0 = false`, so
the C loop never exits; the model reports that as `none`. -/
def redFetch (rest : List Nat) : Option Nat := rest.find? redAccept

/-- Rebuilt red sequence of `ultimate_search_main` (ultimate_search.c,
lines 611-677): the suit bit-sets are carved out of `red`/`cd`, diamond is
recomputed as the complement of the other three suits, and
`red_sequence = heart_bits | diamond_bits`.  C complements (`~x & mask`)
are modelled as `mask ^^^ (x &&& mask)`, which is the same function of the
low 52 bits. -/
def rebuiltRed (red cd : Nat) : Nat :=
  let invRed := mask52 ^^^ (red &&& mask52)
  let invCd := mask52 ^^^ (cd &&& mask52)
  let spadeBits := invRed &&& invCd
  let clubBits := invRed &&& cd
  let heartBits := red &&& invCd
  let diamondBits := mask52 ^^^ ((spadeBits ||| heartBits ||| clubBits) &&& mask52)
  heartBits ||| diamondBits

theorem testBit_mask52 (u : Nat) : mask52.testBit u = decide (u < 52) := by
  have : mask52 = 2 ^ 52 - 1 := by norm_num [mask52, Nat.one_shiftLeft]
  rw [this, Nat.testBit_two_pow_sub_one]

/-- The rebuilt red sequence is exactly the low 52 bits of the fetched red
sequence, whatever `cd` is. -/
theorem rebuiltRed_eq (red cd : Nat) : rebuiltRed red cd = red &&& mask52 := by
  unfold rebuiltRed
  apply Nat.eq_of_testBit_eq
  intro u
  simp only [Nat.testBit_or, Nat.testBit_and, Nat.testBit_xor, testBit_mask52]
  by_cases hu : u < 52 <;>
    cases hr : red.testBit u <;> cases hc : cd.testBit u <;> simp [hu]

/-- C7 (code bug).  When the red cache is exhausted, `f64_next` returns the
sentinel 0 forever; but `has_long_uniform_subsequence 0 = true`, so the
do-while condition `has_long_uniform_subsequence(red) || red == 0` never
becomes false: the fetch loop cannot deliver the sentinel, the
`if (red_sequence == 0) break` on line 566 is unreachable, and the outer
search loop does not terminate when the cache runs out.  Formally: 0 has a
long uniform run, 0 is not acceptable, and on a fully exhausted stream
(every remaining value 0) the fetch never returns. -/
theorem C7_red_loop_cannot_exit_at_end_of_cache :
    has_long_uniform_subsequence 0 = true ∧ redAccept 0 = false ∧
      ∀ rest : List Nat, (∀ v ∈ rest, v = 0) → redFetch rest = none := by
  refine ⟨by decide, by decide, ?_⟩
  intro rest h
  rw [redFetch, List.find?_eq_none]
  intro x hx
  rw [h x hx]
  decide

/-- Witness for C7 on a concrete exhausted stream. -/
theorem C7_witness :
    (∀ v ∈ ([0, 0, 0] : List Nat), v = 0) ∧ redFetch [0, 0, 0] = none :=
  ⟨by decide, C7_red_loop_cannot_exit_at_end_of_cache.2.2 [0, 0, 0] (by decide)⟩

/-- C10.  Every red value the outer loop of `ultimate_search_main` accepts
(and hence every red sequence a candidate bundle is built from) has no
cyclic length-6 window that is all zeros or all ones, and is nonzero; the
filter sits in the fetch loop itself, before any flag is consulted.
Moreover the red sequence stored into the emitted bundle is the accepted
value itself restricted to its 52 bits (`rebuiltRed_eq` applied to the
accepted value). -/
theorem C10_accepted_red_has_no_long_uniform_run :
    ∀ (rest : List Nat) (v : Nat), redFetch rest = some v →
      has_long_uniform_subsequence v = false ∧ v ≠ 0 ∧
        ∀ cd : Nat, rebuiltRed v cd = v &&& mask52 := by
  intro rest v hfind
  have h := List.find?_some hfind
  rw [redAccept] at h
  simp only [Bool.and_eq_true, Bool.not_eq_true', ne_eq, bne_iff_ne] at h
  exact ⟨h.1, h.2, fun cd => rebuiltRed_eq v cd⟩

/-- Witness for C10 at a concrete accepted value. -/
theorem C10_witness :
    redFetch [0x5555555555555] = some 0x5555555555555 ∧
      has_long_uniform_subsequence 0x5555555555555 = false ∧
      (0x5555555555555 : Nat) ≠ 0 ∧
      ∀ cd : Nat, rebuiltRed 0x5555555555555 cd = 0x5555555555555 &&& mask52 :=
  ⟨by decide, C10_accepted_red_has_no_long_uniform_run [0x5555555555555]
    0x5555555555555 (by decide)⟩

/-! ## Population count facts -/

theorem pcountAux_congr : ∀ f g n : Nat, n ≤ f → n ≤ g → pcountAux f n = pcountAux g n := by
  intro f
  induction f with
  | zero =>
    intro g n hf _
    have hn : n = 0 := by omega
    subst hn
    cases g <;> simp [pcountAux]
  | succ f ih =>
    intro g n hf hg
    cases g with
    | zero =>
      have hn : n = 0 := by omega
      subst hn
      simp [pcountAux]
    | succ g =>
      rw [pcountAux, pcountAux]
      by_cases hn : n = 0
      · simp [hn]
      · simp only [hn, if_false]
        have h1 : n / 2 ≤ f := by omega
        have h2 : n / 2 ≤ g := by omega
        rw [ih g (n / 2) h1 h2]

theorem pcount_zero : pcount 0 = 0 := rfl

theorem pcount_eq (n : Nat) : pcount n = pcount (n / 2) + n % 2 := by
  cases n with
  | zero => simp [pcount, pcountAux]
  | succ m =>
    show pcountAux (m + 1) (m + 1) = pcount ((m + 1) / 2) + (m + 1) % 2
    rw [pcountAux]
    simp only [Nat.succ_ne_zero, if_false]
    rw [pcount, pcountAux_congr m ((m + 1) / 2) ((m + 1) / 2) (by omega) (Nat.le_refl _)]

theorem bcsbAux_congr : ∀ f g v : Nat, v ≤ f → v ≤ g → bcsbAux f v = bcsbAux g v := by
  intro f
  induction f with
  | zero =>
    intro g v hf _
    have hv : v = 0 := by omega
    subst hv
    cases g <;> simp [bcsbAux]
  | succ f ih =>
    intro g v hf hg
    cases g with
    | zero =>
      have hv : v = 0 := by omega
      subst hv
      simp [bcsbAux]
    | succ g =>
      rw [bcsbAux, bcsbAux]
      by_cases hv : v = 0
      · simp [hv]
      · simp only [hv, if_false]
        have hand : v &&& (v - 1) ≤ v - 1 := Nat.le_trans Nat.and_le_right (Nat.le_refl _)
        have h1 : v &&& (v - 1) ≤ f := by omega
        have h2 : v &&& (v - 1) ≤ g := by omega
        rw [ih g (v &&& (v - 1)) h1 h2]

theorem bit_count_set_bits_zero : bit_count_set_bits 0 = 0 := rfl

theorem bit_count_set_bits_of_ne_zero {v : Nat} (h : v ≠ 0) :
    bit_count_set_bits v = bit_count_set_bits (v &&& (v - 1)) + 1 := by
  cases v with
  | zero => exact absurd rfl h
  | succ m =>
    show bcsbAux (m + 1) (m + 1) = bit_count_set_bits ((m + 1) &&& m) + 1
    rw [bcsbAux]
    simp only [Nat.succ_ne_zero, if_false, Nat.add_sub_cancel]
    rw [bit_count_set_bits,
      bcsbAux_congr m ((m + 1) &&& m) ((m + 1) &&& m)
        (Nat.le_trans Nat.and_le_right (Nat.le_refl _)) (Nat.le_refl _)]

theorem pcount_two_mul_add (v b : Nat) (hb : b ≤ 1) :
    pcount (2 * v + b) = pcount v + b := by
  rw [pcount_eq]
  have h1 : (2 * v + b) / 2 = v := by omega
  have h2 : (2 * v + b) % 2 = b := by omega
  rw [h1, h2]

theorem and_double_succ (v : Nat) : (2 * v + 1) &&& (2 * v) = 2 * v := by
  apply Nat.eq_of_testBit_eq
  intro i
  cases i with
  | zero =>
    simp only [Nat.testBit_and, Nat.testBit_zero]
    have h1 : (2 * v) % 2 = 0 := by omega
    simp [h1]
  | succ i =>
    have h1 : (2 * v + 1) / 2 = v := by omega
    have h2 : 2 * v / 2 = v := by omega
    rw [Nat.testBit_and, Nat.testBit_add_one, Nat.testBit_add_one, h1, h2, Bool.and_self]

theorem and_double_pred (v : Nat) :
    (2 * v) &&& (2 * v - 1) = 2 * (v &&& (v - 1)) := by
  apply Nat.eq_of_testBit_eq
  intro i
  cases i with
  | zero =>
    simp only [Nat.testBit_and, Nat.testBit_zero]
    have h1 : (2 * v) % 2 = 0 := by omega
    have h2 : (2 * (v &&& (v - 1))) % 2 = 0 := by omega
    simp [h1, h2]
  | succ i =>
    have h1 : 2 * v / 2 = v := by omega
    have h2 : (2 * v - 1) / 2 = v - 1 := by omega
    have h3 : 2 * (v &&& (v - 1)) / 2 = v &&& (v - 1) := by omega
    rw [Nat.testBit_and, Nat.testBit_add_one, Nat.testBit_add_one, Nat.testBit_add_one,
      h1, h2, h3, Nat.testBit_and]


theorem bit_count_set_bits_two_mul (v : Nat) :
    bit_count_set_bits (2 * v) = bit_count_set_bits v := by
  induction v using Nat.strong_induction_on with
  | _ v ih =>
    rcases Nat.eq_zero_or_pos v with rfl | hv
    · rfl
    · have hv0 : v ≠ 0 := by omega
      rw [bit_count_set_bits_of_ne_zero (by omega : 2 * v ≠ 0), and_double_pred v,
        ih (v &&& (v - 1)) (Nat.lt_of_le_of_lt Nat.and_le_right (by omega)),
        bit_count_set_bits_of_ne_zero hv0]

theorem bit_count_set_bits_two_mul_add_one (v : Nat) :
    bit_count_set_bits (2 * v + 1) = bit_count_set_bits v + 1 := by
  rw [bit_count_set_bits_of_ne_zero (by omega : 2 * v + 1 ≠ 0), Nat.add_sub_cancel,
    and_double_succ, bit_count_set_bits_two_mul]

/-- The Kernighan loop of `bit_count_set_bits` computes the population
count. -/
theorem bit_count_set_bits_eq_pcount (v : Nat) : bit_count_set_bits v = pcount v := by
  induction v using Nat.strong_induction_on with
  | _ v ih =>
    rcases Nat.eq_zero_or_pos v with rfl | hv
    · rw [bit_count_set_bits_zero, pcount_zero]
    · have hsplit : v = 2 * (v / 2) + v % 2 := by omega
      rcases Nat.mod_two_eq_zero_or_one v with h | h
      · rw [pcount_eq, h]
        conv_lhs => rw [hsplit, h]
        rw [Nat.add_zero, bit_count_set_bits_two_mul, ih (v / 2) (by omega), Nat.add_zero]
      · rw [pcount_eq, h]
        conv_lhs => rw [hsplit, h]
        rw [bit_count_set_bits_two_mul_add_one, ih (v / 2) (by omega)]

/-- Population count is monotone with respect to bitwise containment. -/
theorem pcount_le_of_testBit_le (a : Nat) : ∀ b : Nat,
    (∀ i, a.testBit i = true → b.testBit i = true) → pcount a ≤ pcount b := by
  induction a using Nat.strong_induction_on with
  | _ a ih =>
    intro b hsub
    rcases Nat.eq_zero_or_pos a with rfl | ha
    · simp [pcount_zero]
    · have hhalf : ∀ i, (a / 2).testBit i = true → (b / 2).testBit i = true := by
        intro i h
        rw [Nat.testBit_div_two] at h ⊢
        exact hsub _ h
      have hmod : a % 2 ≤ b % 2 := by
        rcases Nat.mod_two_eq_zero_or_one a with h | h
        · omega
        · have h0 : a.testBit 0 = true := by simp [Nat.testBit_zero, h]
          have := hsub 0 h0
          rw [Nat.testBit_zero, decide_eq_true_eq] at this
          omega
      calc pcount a = pcount (a / 2) + a % 2 := pcount_eq a
        _ ≤ pcount (b / 2) + b % 2 :=
            Nat.add_le_add (ih (a / 2) (by omega) (b / 2) hhalf) hmod
        _ = pcount b := (pcount_eq b).symm

theorem pcount_le_pcount_or_left (a b : Nat) : pcount a ≤ pcount (a ||| b) := by
  apply pcount_le_of_testBit_le
  intro i h
  rw [Nat.testBit_or, h, Bool.true_or]

/-! ## Deck model and the predicate tester (`deck_utilities.c`, `umake_decks.c`) -/

/-- Model of `deck_is_value_in_array` (deck_utilities.c): linear membership
scan. -/
def deck_is_value_in_array (value : Nat) (arr : List Nat) : Bool :=
  arr.any (fun x => x == value)

/-- Model of `deck_get_sequence_from_deck` (deck_utilities.c): walk the
current `temp_deck_array`, shifting the sequence left and appending a 1-bit
whenever the card value (`card & 0xFF`) lies in the given value array. -/
def deck_get_sequence_from_deck (values : List Nat) (deck : List Nat) : Nat :=
  deck.foldl
    (fun seq card =>
      let seq2 := seq <<< 1
      if deck_is_value_in_array (card &&& 255) values then seq2 ||| 1 else seq2) 0

/-- Sequence type bits from sequence_utilities.h. -/
def SEQ_A6 : Nat := 0x1
def SEQ_A7 : Nat := 0x2
def SEQ_27 : Nat := 0x4
def SEQ_28 : Nat := 0x8
def SEQ_38 : Nat := 0x10
def SEQ_39 : Nat := 0x20
def SEQ_49 : Nat := 0x40
def SEQ_4T : Nat := 0x80
def SEQ_5T : Nat := 0x100
def SEQ_5J : Nat := 0x200
def SEQ_6J : Nat := 0x400
def SEQ_6Q : Nat := 0x800
def SEQ_7Q : Nat := 0x1000
def SEQ_EV : Nat := 0x2000
def SEQ_HD : Nat := 0x4000
def SEQ_CD : Nat := 0x8000
def SEQ_HC : Nat := 0x10000
def SEQ_M34 : Nat := 0x20000
def SEQ_M46 : Nat := 0x40000
def SEQ_M47 : Nat := 0x80000
def SEQ_M58 : Nat := 0x100000
def SEQ_M59 : Nat := 0x200000
def SEQ_M6Q : Nat := 0x400000
def SEQ_PR : Nat := 0x800000
def SEQ_FI : Nat := 0x1000000
def SEQ_LU : Nat := 0x2000000

/-- The seven input-guaranteed bits, OR-ed into the mask unconditionally at
umake_decks.c line 668. -/
def seqGuaranteedBits : Nat :=
  SEQ_A6 ||| SEQ_A7 ||| SEQ_4T ||| SEQ_EV ||| SEQ_HD ||| SEQ_CD ||| SEQ_HC

/-- The `CHECK_FOR_BRACELET_SEQUENCE` invocations that always run in
`test_deck_for_special_sequences` (umake_decks.c, lines 672-682), in
program order: the value array and the `SEQ_` bit of each check. -/
def seqCatalogBase : List (List Nat × Nat) :=
  [([2, 3, 4, 5, 6, 7], SEQ_27),
   ([2, 3, 4, 5, 6, 7, 8], SEQ_28),
   ([3, 4, 5, 6, 7, 8], SEQ_38),
   ([3, 4, 5, 6, 7, 8, 9], SEQ_39),
   ([4, 5, 6, 7, 8, 9], SEQ_49),
   ([5, 6, 7, 8, 9, 10], SEQ_5T),
   ([5, 6, 7, 8, 9, 10, 11], SEQ_5J),
   ([6, 7, 8, 9, 10, 11], SEQ_6J),
   ([6, 7, 8, 9, 10, 11, 12], SEQ_6Q),
   ([7, 8, 9, 10, 11, 12], SEQ_7Q)]

/-- The additional checks that run only under the `--all` flag
(umake_decks.c, lines 686-697). -/
def seqCatalogAll : List (List Nat × Nat) :=
  [([3, 4, 6, 8, 9, 12], SEQ_M34),
   ([4, 5, 6, 8, 10, 12], SEQ_M46),
   ([4, 5, 6, 7, 8, 10, 12], SEQ_M47),
   ([5, 6, 7, 8, 10, 12], SEQ_M58),
   ([5, 6, 7, 8, 9, 10, 12], SEQ_M59),
   ([6, 7, 8, 9, 10, 12], SEQ_M6Q),
   ([2, 3, 5, 7, 11, 13], SEQ_PR),
   ([1, 2, 3, 5, 8, 13], SEQ_FI),
   ([1, 2, 3, 4, 7, 11], SEQ_LU)]

/-- One `CHECK_FOR_BRACELET_SEQUENCE` macro expansion: derive the indicator
sequence from the deck, test bracelet validity, and on success OR the bit
in and bump `sequence_count`. -/
def seqCheckStep (deck : List Nat) (acc : Nat × Nat) (c : List Nat × Nat) : Nat × Nat :=
  if bit_has_unique_subsequences (deck_get_sequence_from_deck c.1 deck) then
    (acc.1 ||| c.2, acc.2 + 1)
  else acc

/-- Model of `test_deck_for_special_sequences` (umake_decks.c, lines
624-703): returns `(sequence_type_bits, sequence_count)`.  The seven
input-guaranteed bits are OR-ed in before any check runs; each check can
only add further bits. -/
def test_deck_for_special_sequences (find_all : Bool) (deck : List Nat) : Nat × Nat :=
  (seqCatalogBase ++ (if find_all then seqCatalogAll else [])).foldl
    (seqCheckStep deck) (seqGuaranteedBits, 0)

theorem seqCheckFold_testBit (deck : List Nat) :
    ∀ (l : List (List Nat × Nat)) (acc : Nat × Nat) (u : Nat),
      acc.1.testBit u = true → ((l.foldl (seqCheckStep deck) acc).1).testBit u = true := by
  intro l
  induction l with
  | nil => intro acc u h; exact h
  | cons c t ih =>
    intro acc u h
    rw [List.foldl_cons]
    apply ih
    rw [seqCheckStep]
    split
    · simp only
      rw [Nat.testBit_or, h, Bool.true_or]
    · exact h

/-- C9.  For every deck state and either flag value, the mask returned by
`test_deck_for_special_sequences` has all seven input-guaranteed bits
(`SEQ_A6, SEQ_A7, SEQ_4T, SEQ_EV, SEQ_HD, SEQ_CD, SEQ_HC`) set, hence is
nonzero, and its population count — the deck's predicate count as computed
by `bit_count_set_bits` in `get_deck_score` — is at least 7. -/
theorem C9_guaranteed_bits_always_set (find_all : Bool) (deck : List Nat) :
    (test_deck_for_special_sequences find_all deck).1 &&& seqGuaranteedBits =
        seqGuaranteedBits ∧
      (test_deck_for_special_sequences find_all deck).1 ≠ 0 ∧
      7 ≤ bit_count_set_bits (test_deck_for_special_sequences find_all deck).1 := by
  set bits := (test_deck_for_special_sequences find_all deck).1 with hbits
  have hsub : ∀ u, seqGuaranteedBits.testBit u = true → bits.testBit u = true := by
    intro u h
    rw [hbits, test_deck_for_special_sequences]
    exact seqCheckFold_testBit deck _ _ u h
  refine ⟨?_, ?_, ?_⟩
  · apply Nat.eq_of_testBit_eq
    intro u
    rw [Nat.testBit_and]
    cases hg : seqGuaranteedBits.testBit u
    · rw [Bool.and_false]
    · rw [Bool.and_true]
      exact hsub u hg
  · intro h0
    have := hsub 0 (by decide)
    rw [h0, Nat.zero_testBit] at this
    exact absurd this (by simp)
  · have h7 : pcount seqGuaranteedBits = 7 := by decide
    rw [bit_count_set_bits_eq_pcount, ← h7]
    exact pcount_le_of_testBit_le seqGuaranteedBits bits hsub

/-! ## Spread scoring (`deck_get_dup_count_score`) and C5 -/

/-- The penalty table of the `switch` statements in
`deck_get_dup_count_score`. -/
def dupPenalty (d : Int) : Nat :=
  if d = 1 then 32 else if d = 2 then 16 else if d = 3 then 8
  else if d = 4 then 4 else if d = 5 then 2 else if d = 6 then 1 else 0

/-- One iteration of the main loop of `deck_get_dup_count_score`
(deck_utilities.c, lines 126-171).  State: `last_value_position_array`
(13 `Int` entries, initially -1), the running `dup_count`, and the
function-scoped `value_position_diff`, which is only written when a
previous occurrence exists. -/
def dupMainStep (st : List Int × Nat × Int) (ic : Nat × Nat) : List Int × Nat × Int :=
  let cv := ic.2 &&& 15
  let lp := st.1.getD (cv - 1) 0
  let arr := st.1.set (cv - 1) (ic.1 : Int)
  if 0 ≤ lp then
    let d := (ic.1 : Int) - lp
    (arr, st.2.1 + dupPenalty d, d)
  else (arr, st.2.1, st.2.2)

/-- One iteration of the wrap loop of `deck_get_dup_count_score`
(deck_utilities.c, lines 174-226) over the first five cards.  The
`value_position_diff` is recomputed only when the recorded last position
exceeds 5 (cyclically when it exceeds 46); in every case the switch then
applies the penalty for the *current* content of `value_position_diff`,
which may be stale. -/
def dupWrapStep (st : List Int × Nat × Int) (ic : Nat × Nat) : List Int × Nat × Int :=
  let cv := ic.2 &&& 15
  let lp := st.1.getD (cv - 1) 0
  let arr := st.1.set (cv - 1) (ic.1 : Int)
  let d := if 5 < lp then (if 46 < lp then (ic.1 : Int) - (lp - 52) else lp - (ic.1 : Int))
    else st.2.2
  (arr, st.2.1 + dupPenalty d, d)

/-- Model of `deck_get_dup_count_score` (deck_utilities.c, lines 110-229):
a linear pass over all 52 cards followed by the wrap pass over the first 5,
returning `65535 - dup_count`. -/
def deck_get_dup_count_score (deck : List Nat) : Nat :=
  let st0 : List Int × Nat × Int := (List.replicate 13 (-1 : Int), 0, 0)
  let st1 := deck.enum.foldl dupMainStep st0
  let st2 := ((deck.take 5).enum).foldl dupWrapStep st1
  65535 - st2.2.1

/-- Positions (0-based deck indices) of the cards with value `v`. -/
def positionsOf (deck : List Nat) (v : Nat) : List Nat :=
  (deck.enum.filter (fun ic => ic.2 &&& 15 == v)).map (fun ic => ic.1)

/-- Penalties of consecutive occurrences of one value, measured linearly. -/
def consecPenalties (ps : List Nat) : Nat :=
  (ps.zip ps.tail).foldl (fun a pq => a + dupPenalty ((pq.2 : Int) - (pq.1 : Int))) 0

/-- Penalty of the cyclic pair formed by the last and first occurrence of a
value (present only when the value occurs at least twice). -/
def wrapPairPenalty (ps : List Nat) : Nat :=
  match ps.head?, ps.getLast? with
  | some a, some b => if 2 ≤ ps.length then dupPenalty ((a : Int) + 52 - (b : Int)) else 0
  | _, _ => 0

/-- Modelled from the spec (§4.6 Step 5): the intended spread score:
`65535` minus the sum, over pairs of consecutive same-valued cards, of the
penalty `32,16,8,4,2,1` for distance `1..6` (0 for distance ≥ 7), distances
measured linearly across the 52 positions and cyclically for the pair that
wraps around the deck; each qualifying pair contributes exactly once. -/
def specSpreadScore (deck : List Nat) : Nat :=
  65535 - (List.range 13).foldl
    (fun acc j =>
      let ps := positionsOf deck (j + 1)
      acc + consecPenalties ps + wrapPairPenalty ps) 0

/-- A legal 52-card value layout: the repeating pattern 1..13 with the
cards at positions 0 and 7 exchanged, so that value 8 occupies positions
0, 20, 33, 46 and value 1 occupies positions 7, 13, 26, 39.  The pair
{46, 0} of value 8 has cyclic distance 6 and spans the first-5/last-47
boundary, so the specification assigns it penalty 1; the wrap pass of the
C code only measures cyclically when the previous position exceeds 46, so
it computes distance 46 instead and assigns no penalty. -/
def c5FailingDeck : List Nat :=
  [8, 2, 3, 4, 5, 6, 7, 1, 9, 10, 11, 12, 13,
   1, 2, 3, 4, 5, 6, 7, 8, 9, 10, 11, 12, 13,
   1, 2, 3, 4, 5, 6, 7, 8, 9, 10, 11, 12, 13,
   1, 2, 3, 4, 5, 6, 7, 8, 9, 10, 11, 12, 13]

set_option maxRecDepth 8000 in
/-- C5 (code bug).  On `c5FailingDeck` the code computes a total penalty of
1 (score 65534) while the specified scoring — each qualifying pair once,
cyclic across the first-5/last-47 boundary — yields penalty 2 (score
65533): the value-8 pair at positions 46 and 0 with cyclic distance 6 is
missed by the wrap pass. -/
theorem C5_dup_score_diverges_from_spec :
    deck_get_dup_count_score c5FailingDeck = 65534 ∧
      specSpreadScore c5FailingDeck = 65533 ∧
      deck_get_dup_count_score c5FailingDeck ≠ specSpreadScore c5FailingDeck := by
  refine ⟨by decide, by decide, ?_⟩
  intro h
  rw [show deck_get_dup_count_score c5FailingDeck = 65534 from by decide,
    show specSpreadScore c5FailingDeck = 65533 from by decide] at h
  exact absurd h (by decide)

/-! ## More bitwise infrastructure -/

theorem lor_eq_zero_iff (a b : Nat) : a ||| b = 0 ↔ a = 0 ∧ b = 0 := by
  constructor
  · intro h
    constructor
    · apply Nat.eq_of_testBit_eq
      intro i
      have := congrArg (fun x => x.testBit i) h
      simp only [Nat.testBit_or, Nat.zero_testBit] at this ⊢
      exact (Bool.or_eq_false_iff.mp this).1
    · apply Nat.eq_of_testBit_eq
      intro i
      have := congrArg (fun x => x.testBit i) h
      simp only [Nat.testBit_or, Nat.zero_testBit] at this ⊢
      exact (Bool.or_eq_false_iff.mp this).2
  · rintro ⟨rfl, rfl⟩
    rfl

theorem lor_div_two (a b : Nat) : (a ||| b) / 2 = a / 2 ||| b / 2 := by
  apply Nat.eq_of_testBit_eq
  intro i
  rw [Nat.testBit_div_two, Nat.testBit_or, Nat.testBit_or, Nat.testBit_div_two,
    Nat.testBit_div_two]

theorem land_div_two (a b : Nat) : (a &&& b) / 2 = a / 2 &&& b / 2 := by
  apply Nat.eq_of_testBit_eq
  intro i
  rw [Nat.testBit_div_two, Nat.testBit_and, Nat.testBit_and, Nat.testBit_div_two,
    Nat.testBit_div_two]

theorem mod_two_eq_one_iff_testBit (a : Nat) : a % 2 = 1 ↔ a.testBit 0 = true := by
  rw [Nat.testBit_zero, decide_eq_true_eq]

/-- Population counts add over a disjoint OR. -/
theorem pcount_or_disjoint (a : Nat) : ∀ b : Nat, a &&& b = 0 →
    pcount (a ||| b) = pcount a + pcount b := by
  induction a using Nat.strong_induction_on with
  | _ a ih =>
    intro b hab
    rcases Nat.eq_zero_or_pos a with rfl | ha
    · simp [pcount_zero]
    · have hhalf : a / 2 &&& b / 2 = 0 := by
        rw [← land_div_two, hab]
      have hmod : (a ||| b) % 2 = a % 2 + b % 2 := by
        rcases Nat.mod_two_eq_zero_or_one a with h1 | h1 <;>
          rcases Nat.mod_two_eq_zero_or_one b with h2 | h2
        · have ta : a.testBit 0 = false := by simp [Nat.testBit_zero, h1]
          have tb : b.testBit 0 = false := by simp [Nat.testBit_zero, h2]
          have : (a ||| b).testBit 0 = false := by rw [Nat.testBit_or, ta, tb]; rfl
          rw [Nat.testBit_zero, decide_eq_false_iff_not] at this
          omega
        · have tb : b.testBit 0 = true := by simp [Nat.testBit_zero, h2]
          have h3 : (a ||| b).testBit 0 = true := by
            rw [Nat.testBit_or, tb, Bool.or_true]
          have hm : (a ||| b) % 2 = 1 := (mod_two_eq_one_iff_testBit _).mpr h3
          omega
        · have ta : a.testBit 0 = true := by simp [Nat.testBit_zero, h1]
          have h3 : (a ||| b).testBit 0 = true := by
            rw [Nat.testBit_or, ta, Bool.true_or]
          have hm : (a ||| b) % 2 = 1 := (mod_two_eq_one_iff_testBit _).mpr h3
          omega
        · exfalso
          have ta : a.testBit 0 = true := by simp [Nat.testBit_zero, h1]
          have tb : b.testBit 0 = true := by simp [Nat.testBit_zero, h2]
          have : (a &&& b).testBit 0 = true := by rw [Nat.testBit_and, ta, tb]; rfl
          rw [hab, Nat.zero_testBit] at this
          exact absurd this (by simp)
      calc pcount (a ||| b) = pcount ((a ||| b) / 2) + (a ||| b) % 2 := pcount_eq _
        _ = pcount (a / 2 ||| b / 2) + (a % 2 + b % 2) := by rw [lor_div_two, hmod]
        _ = pcount (a / 2) + pcount (b / 2) + (a % 2 + b % 2) := by
            rw [ih (a / 2) (by omega) (b / 2) hhalf]
        _ = (pcount (a / 2) + a % 2) + (pcount (b / 2) + b % 2) := by omega
        _ = pcount a + pcount b := by rw [← pcount_eq, ← pcount_eq]

/-- An OR with a value below `2 ^ k` slotted under a left shift is plain
addition. -/
theorem shiftLeft_or_eq_add (a d k : Nat) (hd : d < 2 ^ k) :
    (a <<< k) ||| d = 2 ^ k * a + d := by
  apply Nat.eq_of_testBit_eq
  intro j
  rw [Nat.testBit_or, Nat.testBit_shiftLeft, Nat.testBit_mul_pow_two_add a hd]
  rcases Nat.lt_or_ge j k with h | h
  · simp [show ¬(j ≥ k) from by omega, h]
  · have hdj : d.testBit j = false :=
      Nat.testBit_lt_two_pow (Nat.lt_of_lt_of_le hd (Nat.pow_le_pow_right (by omega) h))
    simp [show j ≥ k from h, show ¬(j < k) from by omega, hdj]

/-! ## Deck realizer (`umake_decks.c`) -/

def VALUE_ACE_OR_THREE : Nat := 103
def VALUE_FOUR_OR_SIX : Nat := 46
def VALUE_EIGHT_OR_TEN : Nat := 81
def VALUE_JACK_OR_KING : Nat := 113
def TINY_DECK_SCORE : Nat := 0
def SUIT_SPADE : Nat := 0
def SUIT_CLUB : Nat := 1
def SUIT_HEART : Nat := 2
def SUIT_DIAMOND : Nat := 3

/-- The seven sequences of one candidate record (struct `seq_info_t`). -/
structure SeqInfoT where
  red : Nat
  cd : Nat
  hc : Nat
  odd : Nat
  c7k : Nat
  c8k : Nat
  c4t : Nat

/-- Bit `b` of `x` as 0 or 1. -/
def bitAt (x b : Nat) : Nat := (x >>> b) &&& 1

/-- The `value_lookup_array` of `get_deck_possibilities` (umake_decks.c,
lines 589-593), indexed by the 4-bit code `(odd<<3)|(c7k<<2)|(c8k<<1)|c4t`. -/
def value_lookup_array : List Nat :=
  [2, VALUE_FOUR_OR_SIX, 0, 0, 0, 0, 12, VALUE_EIGHT_OR_TEN,
   VALUE_ACE_OR_THREE, 5, 0, 0, 0, 7, VALUE_JACK_OR_KING, 9]

/-- Model of `get_deck_possibilities` (umake_decks.c, lines 563-621).  The
C loop runs `i` from 51 down to 0 consuming one low bit of every sequence
per step, so cell `i` of the produced deck is built from bit `51 - i` of
each sequence: `(suit << 8) | value_lookup_array[code]`. -/
def get_deck_possibilities (s : SeqInfoT) : List Nat :=
  (List.range 52).map (fun i =>
    let b := 51 - i
    let suit := (bitAt s.red b <<< 1) ||| bitAt s.cd b
    let code := (bitAt s.odd b <<< 3) ||| (bitAt s.c7k b <<< 2) |||
      (bitAt s.c8k b <<< 1) ||| bitAt s.c4t b
    (suit <<< 8) ||| value_lookup_array.getD code 0)

/-- Indices (ascending) at which the partially decoded deck holds the
ambiguous marker `m` in suit `s`; this is the content of the
`x.._.._array` pair recorded by the scan in `find_best_deck_order`
(umake_decks.c, lines 800-899), which walks the deck by index and
appends each index whose cell has low byte `m` and high bits `s`. -/
def markerPositions (deck : List Nat) (m s : Nat) : List Nat :=
  (List.range deck.length).filter
    (fun q => (deck.getD q 0 &&& 255 == m) && (deck.getD q 0 >>> 8 == s))

/-- The sixteen ambiguity slots in the order the 65536-loop writes them
(umake_decks.c, lines 946-1044): for each marker the suits in order
spade, heart, club, diamond.  Fields: marker, suit, low card value, high
card value, and the bit of the realization index `i` that picks the
orientation (`xa3s` is bit 0, `x46s` bit 1, `x8ts` bit 2, `xjks` bit 3,
`xa3h` bit 4, and so on, with diamond bits 12-15). -/
def fillSlots : List (Nat × Nat × Nat × Nat × Nat) :=
  [(VALUE_ACE_OR_THREE, SUIT_SPADE, 1, 3, 0),
   (VALUE_ACE_OR_THREE, SUIT_HEART, 1, 3, 4),
   (VALUE_ACE_OR_THREE, SUIT_CLUB, 1, 3, 8),
   (VALUE_ACE_OR_THREE, SUIT_DIAMOND, 1, 3, 12),
   (VALUE_FOUR_OR_SIX, SUIT_SPADE, 4, 6, 1),
   (VALUE_FOUR_OR_SIX, SUIT_HEART, 4, 6, 5),
   (VALUE_FOUR_OR_SIX, SUIT_CLUB, 4, 6, 9),
   (VALUE_FOUR_OR_SIX, SUIT_DIAMOND, 4, 6, 13),
   (VALUE_EIGHT_OR_TEN, SUIT_SPADE, 8, 10, 2),
   (VALUE_EIGHT_OR_TEN, SUIT_HEART, 8, 10, 6),
   (VALUE_EIGHT_OR_TEN, SUIT_CLUB, 8, 10, 10),
   (VALUE_EIGHT_OR_TEN, SUIT_DIAMOND, 8, 10, 14),
   (VALUE_JACK_OR_KING, SUIT_SPADE, 11, 13, 3),
   (VALUE_JACK_OR_KING, SUIT_HEART, 11, 13, 7),
   (VALUE_JACK_OR_KING, SUIT_CLUB, 11, 13, 11),
   (VALUE_JACK_OR_KING, SUIT_DIAMOND, 11, 13, 15)]

/-- One slot of the cell-filling in the 65536-loop: position `arr[bit]`
receives the lower card and `arr[1 - bit]` the higher one, with `arr` the
marker-position pair recorded from the partially decoded deck before the
loop. -/
def fillStep (pd : List Nat) (x : Nat) (d : List Nat)
    (slot : Nat × Nat × Nat × Nat × Nat) : List Nat :=
  let arr := markerPositions pd slot.1 slot.2.1
  let b := (x >>> slot.2.2.2.2) &&& 1
  let d1 := d.set (arr.getD b 0) ((slot.2.1 <<< 8) ||| slot.2.2.1)
  d1.set (arr.getD (1 - b) 0) ((slot.2.1 <<< 8) ||| slot.2.2.2.1)

/-- Fill the 32 ambiguous cells for realization index `x` by running all
sixteen slots in order. -/
def fillDeck (pd : List Nat) (x : Nat) : List Nat :=
  fillSlots.foldl (fillStep pd x) pd

/-- Model of `get_deck_score` (umake_decks.c, lines 706-723): predicate
count weighted into the high 16 bits, OR-ed with the spread score. -/
def get_deck_score (find_all : Bool) (deck : List Nat) : Nat :=
  (bit_count_set_bits (test_deck_for_special_sequences find_all deck).1 <<< 16) |||
    deck_get_dup_count_score deck

/-- The `memset(&deck_info_ptr->deck_array[0], 0, seq_info_ptr->n_bits_max)`
at umake_decks.c line 778 clears 52 bytes, i.e. the first 13 `int` entries
of the 52-cell array. -/
def zeroFirst13 (d : List Nat) : List Nat := List.replicate 13 0 ++ d.drop 13

/-- Loop state of the 65536-realization loop of `find_best_deck_order`:
`maximum_sequence_count`, `best_score`, `best_sequence_type_bits`, the
`deck_array`, and `first_sequence_found`. -/
structure FbdState where
  maxCount : Nat
  best : Nat
  bestBits : Nat
  bestDeck : List Nat
  firstFound : Bool

/-- One iteration of the 65536-realization loop (umake_decks.c, lines
911-1091).  The deck for realization `i` is `fillDeck pd i`: every
iteration rewrites all 32 ambiguous cells of `temp_deck_array`, which are
the same positions each time, so the mutated array equals the fill of the
pristine partial deck. -/
def fbdStep (find_all : Bool) (pd : List Nat) (st : FbdState) (i : Nat) : FbdState :=
  let deckI := fillDeck pd i
  let tr := test_deck_for_special_sequences find_all deckI
  if tr.1 ≠ 0 then
    if st.maxCount ≤ tr.2 then
      let best0 := if st.firstFound then TINY_DECK_SCORE else st.best
      let score := get_deck_score find_all deckI
      if best0 < score then
        ⟨tr.2, score, tr.1, deckI, false⟩
      else
        ⟨tr.2, best0, st.bestBits, st.bestDeck, false⟩
    else st
  else if st.bestDeck.getD 0 0 == 0 then
    { st with best := get_deck_score find_all deckI, bestDeck := deckI }
  else st

/-- Check that each of the sixteen (marker, suit) pairs occurs exactly
twice in the partially decoded deck (umake_decks.c, lines 902-908). -/
def markerCountsOk (pd : List Nat) : Bool :=
  fillSlots.all (fun slot => (markerPositions pd slot.1 slot.2.1).length == 2)

/-- Model of `find_best_deck_order` (umake_decks.c, lines 726-1098):
returns `(deck_array, deck_score, sequence_type_bits)`.  `d0` is the
incoming content of `deck_array` (partially cleared by the `memset`).  On
the two early exits (an illegal 0 cell, or a marker count other than 2)
the function returns with `best_score = TINY_DECK_SCORE` and zero type
bits, exactly as the C `break` paths do. -/
def find_best_deck_order (find_all : Bool) (d0 : List Nat) (s : SeqInfoT) :
    List Nat × Nat × Nat :=
  let dInit := zeroFirst13 d0
  let pd := get_deck_possibilities s
  if deck_is_value_in_array 0 pd then (dInit, TINY_DECK_SCORE, 0)
  else if markerCountsOk pd then
    let fin := (List.range 65536).foldl (fbdStep find_all pd)
      ⟨0, TINY_DECK_SCORE, 0, dInit, true⟩
    (fin.bestDeck, fin.best, fin.bestBits)
  else (dInit, TINY_DECK_SCORE, 0)

/-! ## Per-record validation in `umake_decks_main` (C6) -/

/-- The validation applied to every candidate record before realization
(umake_decks.c, lines 452-461): the six sequences RED, CD, ODD, 7K, 8K
and 4T must pass `bit_has_unique_subsequences`; the HC sequence is not
among the tested ones. -/
def umakeRecordValid (s : SeqInfoT) : Bool :=
  bit_has_unique_subsequences s.red && bit_has_unique_subsequences s.cd &&
    bit_has_unique_subsequences s.odd && bit_has_unique_subsequences s.c7k &&
    bit_has_unique_subsequences s.c8k && bit_has_unique_subsequences s.c4t

/-- Per-record processing of `umake_decks_main` after the skip count is
exceeded: if the validation fails the process calls `exit(-1)` (modelled
as `none`); otherwise the record is realized through
`find_best_deck_order` (umake_decks.c, lines 442-464). -/
def umakeProcessRecord (find_all : Bool) (d0 : List Nat) (s : SeqInfoT) :
    Option (List Nat × Nat × Nat) :=
  if umakeRecordValid s then some (find_best_deck_order find_all d0 s) else none

/-- A candidate record whose six validated sequences are bracelet-valid
while its HC sequence (0, all windows equal) is not. -/
def c6Record : SeqInfoT :=
  { red := 0x470642569bf3d, cd := 0xd03352fb722b1, hc := 0,
    odd := 0xcf8697b9131d6, c7k := 0xcc7d5e5b8344e,
    c8k := 0xcc79485b8344e, c4t := 0x307e375ec85a7 }

/-- C6 counterexample.  The claim says a record with *any* of the seven
sequences invalid is fatal; here the HC sequence fails bracelet validation
yet the record is processed (the realizer is reached), because
`umake_decks_main` never validates HC. -/
theorem C6_counterexample_hc_not_validated :
    bit_has_unique_subsequences c6Record.hc = false ∧
      umakeProcessRecord false (List.replicate 52 0) c6Record ≠ none := by
  constructor
  · decide
  · rw [umakeProcessRecord, if_pos]
    · simp
    · show umakeRecordValid c6Record = true
      decide

/-- C6 (amended).  A candidate record is treated as fatal (`exit(-1)`,
never realized) iff one of the six sequences RED, CD, ODD, 7K, 8K, 4T
fails bracelet validation; the HC sequence is not checked. -/
theorem C6_record_fatal_iff_one_of_six_invalid (find_all : Bool) (d0 : List Nat)
    (s : SeqInfoT) :
    umakeProcessRecord find_all d0 s = none ↔
      ¬(bit_has_unique_subsequences s.red = true ∧
        bit_has_unique_subsequences s.cd = true ∧
        bit_has_unique_subsequences s.odd = true ∧
        bit_has_unique_subsequences s.c7k = true ∧
        bit_has_unique_subsequences s.c8k = true ∧
        bit_has_unique_subsequences s.c4t = true) := by
  rw [umakeProcessRecord]
  split
  · rename_i h
    rw [umakeRecordValid] at h
    simp only [Bool.and_eq_true] at h
    simp only [ne_eq, reduceCtorEq, false_iff, not_not]
    exact ⟨h.1.1.1.1.1, h.1.1.1.1.2, h.1.1.1.2, h.1.1.2, h.1.2, h.2⟩
  · rename_i h
    rw [umakeRecordValid] at h
    simp only [Bool.and_eq_true] at h
    constructor
    · intro _ hc
      exact h ⟨⟨⟨⟨⟨hc.1, hc.2.1⟩, hc.2.2.1⟩, hc.2.2.2.1⟩, hc.2.2.2.2.1⟩, hc.2.2.2.2.2⟩
    · intro _
      rfl

/-! ## C2: the multiset of cells of a realized deck -/

/-- The marker cell value a slot looks for in the partial deck. -/
def mcell (slot : Nat × Nat × Nat × Nat × Nat) : Nat := (slot.2.1 <<< 8) ||| slot.1

/-- The cell value a slot writes at `arr[bit]` (the lower card). -/
def locell (slot : Nat × Nat × Nat × Nat × Nat) : Nat := (slot.2.1 <<< 8) ||| slot.2.2.1

/-- The cell value a slot writes at `arr[1 - bit]` (the higher card). -/
def hicell (slot : Nat × Nat × Nat × Nat × Nat) : Nat :=
  (slot.2.1 <<< 8) ||| slot.2.2.2.1

/-- The multiset of marker cells consumed by a slot list (two per slot). -/
def slotCellsM : List (Nat × Nat × Nat × Nat × Nat) → Multiset Nat
  | [] => 0
  | slot :: sl => mcell slot ::ₘ mcell slot ::ₘ slotCellsM sl

/-- The multiset of card cells written by a slot list (a low and a high
card per slot, independently of the realization index). -/
def slotFillM : List (Nat × Nat × Nat × Nat × Nat) → Multiset Nat
  | [] => 0
  | slot :: sl => locell slot ::ₘ hicell slot ::ₘ slotFillM sl

/-- Pairwise distinctness of the marker cells of a slot list. -/
def slotsDistinct : List (Nat × Nat × Nat × Nat × Nat) → Bool
  | [] => true
  | slot :: sl => sl.all (fun b => mcell slot != mcell b) && slotsDistinct sl

theorem markerPositions_mem {pd : List Nat} {m s q : Nat} :
    q ∈ markerPositions pd m s ↔
      q < pd.length ∧ pd.getD q 0 &&& 255 = m ∧ pd.getD q 0 >>> 8 = s := by
  simp [markerPositions, List.mem_filter, List.mem_range, and_assoc]

/-- A cell with low byte `m` and remaining high bits `s` is exactly the
value `(s <<< 8) ||| m`. -/
theorem marker_cell_eq {c m s : Nat} (h1 : c &&& 255 = m) (h2 : c >>> 8 = s) :
    c = (s <<< 8) ||| m := by
  have hm : m < 256 := by
    have := Nat.and_le_right (n := c) (m := 255)
    omega
  have hcell : (s <<< 8) ||| m = 2 ^ 8 * s + m := shiftLeft_or_eq_add s m 8 (by omega)
  have h255 : c &&& 255 = c % 256 := by
    have := Nat.and_pow_two_sub_one_eq_mod c 8
    norm_num at this
    exact this
  have h8 : c >>> 8 = c / 256 := by
    rw [Nat.shiftRight_eq_div_pow]
  norm_num at hcell
  omega

/-- Every recorded marker position really holds the marker cell in the
partial deck. -/
theorem markerPositions_cell {pd : List Nat} {m s q : Nat}
    (h : q ∈ markerPositions pd m s) : pd.getD q 0 = (s <<< 8) ||| m :=
  marker_cell_eq (markerPositions_mem.mp h).2.1 (markerPositions_mem.mp h).2.2

theorem markerPositions_nodup (pd : List Nat) (m s : Nat) :
    (markerPositions pd m s).Nodup :=
  List.Nodup.filter _ (List.nodup_range _)

/-- Counting positions of a cell predicate over the index range equals
counting matching cells directly. -/
theorem countP_getD_range (l : List Nat) (p : Nat → Bool) :
    (List.range l.length).countP (fun q => p (l.getD q 0)) = l.countP p := by
  induction l with
  | nil => rfl
  | cons a t ih =>
    rw [List.length_cons, List.range_succ_eq_map, List.countP_cons, List.countP_map]
    have h1 : ((fun q => p ((a :: t).getD q 0)) ∘ Nat.succ) =
        (fun q => p (t.getD q 0)) := rfl
    rw [h1, ih, List.countP_cons]
    simp only [List.getD_cons_zero]

/-- The number of recorded positions of marker `m` in suit `s` is the
count of the marker cell in the partial deck. -/
theorem markerPositions_length_eq_count (pd : List Nat) (m s : Nat) (hm : m < 256) :
    (markerPositions pd m s).length = pd.count ((s <<< 8) ||| m) := by
  have hpred : ∀ c : Nat,
      ((c &&& 255 == m) && (c >>> 8 == s)) = (c == (s <<< 8) ||| m) := by
    intro c
    have hcell : (s <<< 8) ||| m = 2 ^ 8 * s + m := shiftLeft_or_eq_add s m 8 (by omega)
    have h255 : c &&& 255 = c % 256 := by
      have := Nat.and_pow_two_sub_one_eq_mod c 8
      norm_num at this
      exact this
    have h8 : c >>> 8 = c / 256 := by
      rw [Nat.shiftRight_eq_div_pow]
    norm_num at hcell
    rw [Bool.eq_iff_iff]
    simp only [Bool.and_eq_true, beq_iff_eq]
    constructor
    · rintro ⟨e1, e2⟩
      omega
    · intro e
      omega
  rw [markerPositions, ← List.countP_eq_length_filter, List.count_eq_countP]
  have hco := List.countP_congr (l := List.range pd.length)
    (p := fun q => (pd.getD q 0 &&& 255 == m) && (pd.getD q 0 >>> 8 == s))
    (q := fun q => pd.getD q 0 == (s <<< 8) ||| m)
    (fun q _ => by
      show (pd.getD q 0 &&& 255 == m && pd.getD q 0 >>> 8 == s) = true ↔
        (pd.getD q 0 == (s <<< 8) ||| m) = true
      rw [hpred (pd.getD q 0)])
  rw [hco]
  exact countP_getD_range pd (fun c => c == (s <<< 8) ||| m)

/-- Overwriting one list cell trades its old value for the new one in the
multiset of cells. -/
theorem toMultiset_set (d : List Nat) (q : Nat) (c : Nat) (h : q < d.length) :
    (↑(d.set q c) : Multiset Nat) + {d.getD q 0} = ↑d + {c} := by
  induction d generalizing q with
  | nil => simp at h
  | cons a t ih =>
    cases q with
    | zero =>
      simp only [List.set_cons_zero, List.getD_cons_zero, ← Multiset.cons_coe]
      simp only [← Multiset.singleton_add]
      abel
    | succ n =>
      have hn : n < t.length := by simpa using h
      simp only [List.set_cons_succ, List.getD_cons_succ, ← Multiset.cons_coe]
      simp only [← Multiset.singleton_add, add_assoc]
      rw [ih n hn]

/-- Two writes at distinct positions trade both old values for the two
new ones. -/
theorem toMultiset_set_set (d : List Nat) (qa qb u v : Nat) (hne : qa ≠ qb)
    (ha : qa < d.length) (hb : qb < d.length) :
    (↑((d.set qa u).set qb v) : Multiset Nat) + {d.getD qa 0} + {d.getD qb 0} =
      ↑d + {u} + {v} := by
  have h1 := toMultiset_set d qa u ha
  have h2 := toMultiset_set (d.set qa u) qb v (by simpa using hb)
  have hg : (d.set qa u).getD qb 0 = d.getD qb 0 := by
    simp only [List.getD_eq_getElem?_getD, List.getElem?_set_ne hne]
  rw [hg] at h2
  calc (↑((d.set qa u).set qb v) : Multiset Nat) + {d.getD qa 0} + {d.getD qb 0}
      = ↑((d.set qa u).set qb v) + {d.getD qb 0} + {d.getD qa 0} := add_right_comm _ _ _
    _ = ↑(d.set qa u) + {v} + {d.getD qa 0} := by rw [h2]
    _ = ↑(d.set qa u) + {d.getD qa 0} + {v} := add_right_comm _ _ _
    _ = ↑d + {u} + {v} := by rw [h1]

/-- Cells away from both written positions are untouched. -/
theorem getD_set_set_ne (d : List Nat) (qa qb u v q : Nat) (h1 : qa ≠ q)
    (h2 : qb ≠ q) : ((d.set qa u).set qb v).getD q 0 = d.getD q 0 := by
  simp only [List.getD_eq_getElem?_getD, List.getElem?_set_ne h2,
    List.getElem?_set_ne h1]

/-- Effect of one fill slot on a deck that holds the slot's marker cell at
both recorded positions: the multiset trades the two marker cells for the
low and high card, the length is unchanged, and cells at indices outside
the recorded positions are unchanged. -/
theorem fillStep_effect (pd : List Nat) (x : Nat) (d : List Nat)
    (slot : Nat × Nat × Nat × Nat × Nat)
    (hd : d.length = pd.length)
    (hlen2 : (markerPositions pd slot.1 slot.2.1).length = 2)
    (hinv : ∀ q ∈ markerPositions pd slot.1 slot.2.1, d.getD q 0 = mcell slot) :
    ((↑(fillStep pd x d slot) : Multiset Nat) + ({mcell slot} + {mcell slot}) =
        ↑d + ({locell slot} + {hicell slot})) ∧
      (fillStep pd x d slot).length = d.length ∧
      ∀ q, q ∉ markerPositions pd slot.1 slot.2.1 →
        (fillStep pd x d slot).getD q 0 = d.getD q 0 := by
  obtain ⟨q0, q1, harr⟩ := List.length_eq_two.mp hlen2
  have hq0m : q0 ∈ markerPositions pd slot.1 slot.2.1 := by rw [harr]; simp
  have hq1m : q1 ∈ markerPositions pd slot.1 slot.2.1 := by rw [harr]; simp
  have hq01 : q0 ≠ q1 := by
    have hnd := markerPositions_nodup pd slot.1 slot.2.1
    rw [harr] at hnd
    simp [List.nodup_cons] at hnd
    exact hnd
  have hq0l : q0 < d.length := by
    rw [hd]; exact (markerPositions_mem.mp hq0m).1
  have hq1l : q1 < d.length := by
    rw [hd]; exact (markerPositions_mem.mp hq1m).1
  have hv0 : d.getD q0 0 = mcell slot := hinv q0 hq0m
  have hv1 : d.getD q1 0 = mcell slot := hinv q1 hq1m
  have hble : (x >>> slot.2.2.2.2) &&& 1 ≤ 1 := Nat.and_le_right
  have hbcases : (x >>> slot.2.2.2.2) &&& 1 = 0 ∨ (x >>> slot.2.2.2.2) &&& 1 = 1 := by
    omega
  rcases hbcases with hb | hb
  · have hrep : fillStep pd x d slot = (d.set q0 (locell slot)).set q1 (hicell slot) := by
      simp only [fillStep, locell, hicell]
      rw [harr, hb]
      norm_num
    refine ⟨?_, ?_, ?_⟩
    · rw [hrep]
      have := toMultiset_set_set d q0 q1 (locell slot) (hicell slot) hq01 hq0l hq1l
      rw [hv0, hv1] at this
      calc (↑((d.set q0 (locell slot)).set q1 (hicell slot)) : Multiset Nat) +
            ({mcell slot} + {mcell slot})
          = ↑((d.set q0 (locell slot)).set q1 (hicell slot)) + {mcell slot} +
            {mcell slot} := by rw [add_assoc]
        _ = ↑d + {locell slot} + {hicell slot} := this
        _ = ↑d + ({locell slot} + {hicell slot}) := by rw [add_assoc]
    · rw [hrep]; simp
    · intro q hq
      have hne0 : q0 ≠ q := fun he => hq (he ▸ hq0m)
      have hne1 : q1 ≠ q := fun he => hq (he ▸ hq1m)
      rw [hrep]
      exact getD_set_set_ne d q0 q1 _ _ q hne0 hne1
  · have hrep : fillStep pd x d slot = (d.set q1 (locell slot)).set q0 (hicell slot) := by
      simp only [fillStep, locell, hicell]
      rw [harr, hb]
      norm_num
    refine ⟨?_, ?_, ?_⟩
    · rw [hrep]
      have := toMultiset_set_set d q1 q0 (locell slot) (hicell slot) hq01.symm hq1l hq0l
      rw [hv0, hv1] at this
      calc (↑((d.set q1 (locell slot)).set q0 (hicell slot)) : Multiset Nat) +
            ({mcell slot} + {mcell slot})
          = ↑((d.set q1 (locell slot)).set q0 (hicell slot)) + {mcell slot} +
            {mcell slot} := by rw [add_assoc]
        _ = ↑d + {locell slot} + {hicell slot} := this
        _ = ↑d + ({locell slot} + {hicell slot}) := by rw [add_assoc]
    · rw [hrep]; simp
    · intro q hq
      have hne0 : q0 ≠ q := fun he => hq (he ▸ hq0m)
      have hne1 : q1 ≠ q := fun he => hq (he ▸ hq1m)
      rw [hrep]
      exact getD_set_set_ne d q1 q0 _ _ q hne1 hne0

/-- Telescope for the slot fold: running a list of slots with pairwise
distinct marker cells, each with exactly two recorded positions holding
its marker cell, trades the marker-cell multiset for the card multiset. -/
theorem fillFold_multiset (pd : List Nat) (x : Nat)
    (sl : List (Nat × Nat × Nat × Nat × Nat)) :
    ∀ d : List Nat, d.length = pd.length →
      (∀ slot ∈ sl, (markerPositions pd slot.1 slot.2.1).length = 2) →
      (∀ slot ∈ sl, ∀ q ∈ markerPositions pd slot.1 slot.2.1,
        d.getD q 0 = mcell slot) →
      slotsDistinct sl = true →
      (↑(sl.foldl (fillStep pd x) d) : Multiset Nat) + slotCellsM sl =
        ↑d + slotFillM sl := by
  induction sl with
  | nil =>
    intro d _ _ _ _
    simp [slotCellsM, slotFillM]
  | cons slot tl ih =>
    intro d hd hcnt hinv hpw
    have hpw' : tl.all (fun b => mcell slot != mcell b) = true ∧
        slotsDistinct tl = true := by
      simpa [slotsDistinct, Bool.and_eq_true] using hpw
    have heff := fillStep_effect pd x d slot hd
      (hcnt slot (List.mem_cons_self _ _))
      (fun q hq => hinv slot (List.mem_cons_self _ _) q hq)
    obtain ⟨hkey, hlen', hpres⟩ := heff
    have hih := ih (fillStep pd x d slot) (by rw [hlen', hd])
      (fun s' h' => hcnt s' (List.mem_cons_of_mem _ h'))
      (fun s' h' q hq => by
        rw [hpres q ?_]
        · exact hinv s' (List.mem_cons_of_mem _ h') q hq
        · intro hmem
          have e1 : pd.getD q 0 = mcell slot := markerPositions_cell hmem
          have e2 : pd.getD q 0 = mcell s' := markerPositions_cell hq
          have hne := List.all_eq_true.mp hpw'.1 s' h'
          rw [bne_iff_ne] at hne
          exact hne (e1.symm.trans e2))
      hpw'.2
    rw [List.foldl_cons]
    have hcells : slotCellsM (slot :: tl) =
        {mcell slot} + ({mcell slot} + slotCellsM tl) := by
      simp [slotCellsM, ← Multiset.singleton_add]
    have hfills : slotFillM (slot :: tl) =
        {locell slot} + ({hicell slot} + slotFillM tl) := by
      simp [slotFillM, ← Multiset.singleton_add]
    rw [hcells, hfills]
    calc (↑(tl.foldl (fillStep pd x) (fillStep pd x d slot)) : Multiset Nat) +
          ({mcell slot} + ({mcell slot} + slotCellsM tl))
        = (↑(tl.foldl (fillStep pd x) (fillStep pd x d slot)) + slotCellsM tl) +
          ({mcell slot} + {mcell slot}) := by abel
      _ = (↑(fillStep pd x d slot) + slotFillM tl) +
          ({mcell slot} + {mcell slot}) := by rw [hih]
      _ = (↑(fillStep pd x d slot) + ({mcell slot} + {mcell slot})) +
          slotFillM tl := by abel
      _ = (↑d + ({locell slot} + {hicell slot})) + slotFillM tl := by rw [hkey]
      _ = ↑d + ({locell slot} + ({hicell slot} + slotFillM tl)) := by abel

/-- The standard 52-card deck as cell values `(suit << 8) | value`,
suits 0-3, values 1-13. -/
def standardDeckList : List Nat :=
  (List.range 52).map (fun n => ((n / 13) <<< 8) ||| (n % 13 + 1))

/-- The standard deck as a multiset of cells. -/
def standardDeck : Multiset Nat := (standardDeckList : Multiset Nat)

/-- The five card values that are resolved directly by the value lookup
(not via an ambiguous marker): 2, 5, 7, 9 and queen. -/
def resolvedValues : List Nat := [2, 5, 7, 9, 12]

/-- Modelled from the spec: the amended side condition.  Each resolved
(suit, value) cell must occur exactly once in the partially decoded deck.
The C code never checks this; it is the missing hypothesis that makes the
realized decks standard. -/
def resolvedCountsOk (pd : List Nat) : Bool :=
  (List.range 4).all (fun s => resolvedValues.all
    (fun v => pd.count ((s <<< 8) ||| v) == 1))

/-- The exact multiset of cells a partial deck must carry: one resolved
cell per (suit, resolved value) and two marker cells per slot. -/
def partialCellsList : List Nat :=
  ((List.range 4).flatMap (fun s => resolvedValues.map (fun v => (s <<< 8) ||| v))) ++
    fillSlots.flatMap (fun slot => [mcell slot, mcell slot])

/-- A 52-cell partial deck with the marker counts checked by the code and
the resolved counts of the amended condition is, as a multiset, exactly
`partialCellsList`. -/
theorem partial_deck_multiset (pd : List Nat) (hl : pd.length = 52)
    (hm : markerCountsOk pd = true) (hr : resolvedCountsOk pd = true) :
    (↑pd : Multiset Nat) = ↑partialCellsList := by
  have hres : ∀ s ∈ List.range 4, ∀ v ∈ resolvedValues,
      pd.count ((s <<< 8) ||| v) = 1 := by
    simp only [resolvedCountsOk, List.all_eq_true, beq_iff_eq] at hr
    exact hr
  have hmark : ∀ slot ∈ fillSlots, pd.count (mcell slot) = 2 := by
    simp only [markerCountsOk, List.all_eq_true, beq_iff_eq] at hm
    intro slot hslot
    have h256 : slot.1 < 256 := by fin_cases hslot <;> decide
    have h2 := hm slot hslot
    rw [markerPositions_length_eq_count pd slot.1 slot.2.1 h256] at h2
    exact h2
  have hsub : List.Subperm partialCellsList pd := by
    rw [List.subperm_ext_iff]
    intro a ha
    rcases List.mem_append.mp ha with h | h
    · obtain ⟨s, hs, hmem⟩ := List.mem_flatMap.mp h
      obtain ⟨v, hv, rfl⟩ := List.mem_map.mp hmem
      rw [hres s hs v hv]
      fin_cases hs <;> fin_cases hv <;> decide
    · obtain ⟨slot, hslot, hmem⟩ := List.mem_flatMap.mp h
      have ha' : a = mcell slot := by
        simpa using hmem
      subst ha'
      rw [hmark slot hslot]
      fin_cases hslot <;> decide
  have hle : (↑partialCellsList : Multiset Nat) ≤ ↑pd := Multiset.coe_le.mpr hsub
  have hcard : Multiset.card (↑pd : Multiset Nat) ≤
      Multiset.card (↑partialCellsList : Multiset Nat) := by
    rw [Multiset.coe_card, Multiset.coe_card, hl]
    decide
  exact (Multiset.eq_of_le_of_card_le hle hcard).symm

/-- Exchanging the slot marker cells for the slot card cells on the
partial-cell multiset yields exactly the standard deck. -/
theorem partial_fill_standard :
    (↑partialCellsList : Multiset Nat) + slotFillM fillSlots =
      standardDeck + slotCellsM fillSlots := by
  decide

/-- A sequence bundle that passes every check the realizer performs (all
seven sequences bracelet-valid, no zero value code, every marker twice
per suit) yet whose resolved values are skewed: the spade suit carries
two 7 cells and no 9 cell, the club suit two 9 cells and no 7 cell. -/
def c2SkewRecord : SeqInfoT :=
  { red := 0x7b4a3e642c0dd, cd := 0x1b0fdd1799027, hc := 0x6045e373b50fa,
    odd := 0xcf86972623b7a, c7k := 0xcfdd07098d6cb,
    c8k := 0xcadd07098d48b, c4t := 0x3d77e2992c347 }

/-- A sequence bundle that passes every realizer check and also has the
amended resolved-count property: every realization of it is a standard
deck. -/
def c2GoodRecord : SeqInfoT :=
  { red := 0x470642569bf3d, cd := 0xd03352fb722b1, hc := 0x973510ade9d8c,
    odd := 0xcf8697b9131d6, c7k := 0xcc7d5e5b8344e,
    c8k := 0xcc79485b8344e, c4t := 0x307e375ec85a7 }

/-- C2 counterexample.  A bundle accepted by all of the realizer's own
checks (six sequences validated by the main loop plus the HC sequence all
bracelet-valid, no zero value code, every one of the sixteen
(marker, suit) pairs at exactly two positions) whose realization 0 is not
a permutation of the standard deck: the value codes resolve to two spade
sevens and no spade nine, so the claimed multiset property fails. -/
theorem C2_counterexample_skewed_bundle :
    umakeRecordValid c2SkewRecord = true ∧
    bit_has_unique_subsequences c2SkewRecord.hc = true ∧
    deck_is_value_in_array 0 (get_deck_possibilities c2SkewRecord) = false ∧
    markerCountsOk (get_deck_possibilities c2SkewRecord) = true ∧
    (↑(fillDeck (get_deck_possibilities c2SkewRecord) 0) : Multiset Nat) ≠
      standardDeck := by
  refine ⟨by decide, by decide, by decide, by decide, by decide⟩

/-- C2 (amended).  For a bundle accepted by the realizer's checks that in
addition carries each resolved (suit, value) cell exactly once, every
realization index yields a deck whose multiset of cells is exactly the
standard 52-card deck. -/
theorem C2_amended_realized_deck_standard (s : SeqInfoT) (x : Nat)
    (_hv : umakeRecordValid s = true)
    (_h0 : deck_is_value_in_array 0 (get_deck_possibilities s) = false)
    (hm : markerCountsOk (get_deck_possibilities s) = true)
    (hr : resolvedCountsOk (get_deck_possibilities s) = true)
    (_hx : x < 65536) :
    (↑(fillDeck (get_deck_possibilities s) x) : Multiset Nat) = standardDeck := by
  have hl : (get_deck_possibilities s).length = 52 := by
    simp [get_deck_possibilities]
  have hm' : ∀ slot ∈ fillSlots,
      (markerPositions (get_deck_possibilities s) slot.1 slot.2.1).length = 2 := by
    simp only [markerCountsOk, List.all_eq_true, beq_iff_eq] at hm
    exact hm
  have hfold := fillFold_multiset (get_deck_possibilities s) x fillSlots
    (get_deck_possibilities s) rfl hm'
    (fun slot h q hq => markerPositions_cell hq)
    (by decide)
  rw [partial_deck_multiset (get_deck_possibilities s) hl hm hr,
    partial_fill_standard] at hfold
  exact add_right_cancel hfold

/-- Witness for the amended C2 theorem at a concrete accepted bundle and
realization index 0. -/
theorem C2_amended_witness :
    (↑(fillDeck (get_deck_possibilities c2GoodRecord) 0) : Multiset Nat) =
      standardDeck :=
  C2_amended_realized_deck_standard c2GoodRecord 0 (by decide) (by decide)
    (by decide) (by decide) (by decide)

/-! ## C3: find_best_deck_order keeps a maximal realization -/

theorem and_eq_zero_iff_testBit (a b : Nat) :
    a &&& b = 0 ↔ ∀ j, a.testBit j = false ∨ b.testBit j = false := by
  constructor
  · intro h j
    have := congrArg (fun x => x.testBit j) h
    simp only [Nat.testBit_and, Nat.zero_testBit] at this
    exact Bool.and_eq_false_iff.mp this
  · intro h
    apply Nat.eq_of_testBit_eq
    intro j
    rw [Nat.testBit_and, Nat.zero_testBit]
    rcases h j with h' | h' <;> simp [h']

/-- Well-formedness of a check catalog against already-used mask bits:
every catalog bit is a single fresh bit. -/
def catDisjoint : Nat → List (List Nat × Nat) → Bool
  | _, [] => true
  | seen, c :: rest =>
    (c.2 &&& seen == 0) && (bit_count_set_bits c.2 == 1) &&
      catDisjoint (seen ||| c.2) rest

/-- Over a catalog of fresh single bits, every matched check adds exactly
one set bit, so the popcount of the mask advances with the match count. -/
theorem seqCheckFold_pcount (deck : List Nat) :
    ∀ (cat : List (List Nat × Nat)) (bits count seen : Nat),
      (∀ j, bits.testBit j = true → seen.testBit j = true) →
      catDisjoint seen cat = true →
      pcount (cat.foldl (seqCheckStep deck) (bits, count)).1 + count =
        pcount bits + (cat.foldl (seqCheckStep deck) (bits, count)).2 := by
  intro cat
  induction cat with
  | nil => intro bits count seen _ _; simp
  | cons c rest ih =>
    intro bits count seen hsub hdis
    have hdis' : (c.2 &&& seen = 0) ∧ bit_count_set_bits c.2 = 1 ∧
        catDisjoint (seen ||| c.2) rest = true := by
      simpa [catDisjoint, Bool.and_eq_true, and_assoc] using hdis
    rw [List.foldl_cons, seqCheckStep]
    split
    · have hbc : bits &&& c.2 = 0 := by
        rw [and_eq_zero_iff_testBit]
        intro j
        rcases (and_eq_zero_iff_testBit c.2 seen).mp hdis'.1 j with h' | h'
        · right; exact h'
        · cases hbj : bits.testBit j
          · left; rfl
          · have := hsub j hbj
            rw [h'] at this
            exact absurd this (by simp)
      have hsub' : ∀ j, (bits ||| c.2).testBit j = true →
          (seen ||| c.2).testBit j = true := by
        intro j hj
        rw [Nat.testBit_or] at hj ⊢
        rcases Bool.or_eq_true_iff.mp hj with h' | h'
        · rw [hsub j h', Bool.true_or]
        · rw [h', Bool.or_true]
      have hih := ih (bits ||| c.2) (count + 1) (seen ||| c.2) hsub' hdis'.2.2
      have hpc : pcount (bits ||| c.2) = pcount bits + 1 := by
        rw [pcount_or_disjoint bits c.2 hbc]
        have : pcount c.2 = 1 := by
          rw [← bit_count_set_bits_eq_pcount]
          exact hdis'.2.1
        omega
      simp only at hih ⊢
      omega
    · exact ih bits count (seen ||| c.2)
        (fun j h' => by rw [Nat.testBit_or, hsub j h', Bool.true_or]) hdis'.2.2

/-- The predicate count in the high word of the deck score: the mask
popcount is always exactly 7 plus the match count. -/
theorem test_deck_bits_count (find_all : Bool) (deck : List Nat) :
    bit_count_set_bits (test_deck_for_special_sequences find_all deck).1 =
      7 + (test_deck_for_special_sequences find_all deck).2 := by
  have hcd : catDisjoint seqGuaranteedBits
      (seqCatalogBase ++ (if find_all then seqCatalogAll else [])) = true := by
    cases find_all <;> decide
  have h := seqCheckFold_pcount deck
    (seqCatalogBase ++ (if find_all then seqCatalogAll else []))
    seqGuaranteedBits 0 seqGuaranteedBits (fun _ hj => hj) hcd
  have h7 : pcount seqGuaranteedBits = 7 := by decide
  rw [bit_count_set_bits_eq_pcount, test_deck_for_special_sequences]
  omega

/-- The sequence-type mask is never zero. -/
theorem test_deck_bits_ne_zero (find_all : Bool) (deck : List Nat) :
    (test_deck_for_special_sequences find_all deck).1 ≠ 0 := by
  intro h
  have hc := test_deck_bits_count find_all deck
  rw [h, bit_count_set_bits_zero] at hc
  omega

/-- The spread score never exceeds its 16-bit field. -/
theorem dup_score_le (deck : List Nat) : deck_get_dup_count_score deck ≤ 65535 := by
  simp only [deck_get_dup_count_score]
  exact Nat.sub_le _ _

/-- The deck score decomposes arithmetically: predicate count (7 plus
matches) weighted by 65536 plus the spread score. -/
theorem get_deck_score_eq (find_all : Bool) (deck : List Nat) :
    get_deck_score find_all deck =
      65536 * (7 + (test_deck_for_special_sequences find_all deck).2) +
        deck_get_dup_count_score deck := by
  rw [get_deck_score, test_deck_bits_count]
  have hd : deck_get_dup_count_score deck < 2 ^ 16 := by
    have := dup_score_le deck
    norm_num
    omega
  have := shiftLeft_or_eq_add (7 + (test_deck_for_special_sequences find_all deck).2)
    (deck_get_dup_count_score deck) 16 hd
  rw [this]
  norm_num

/-- Score of realization `i` of partial deck `pd`. -/
def scoreAt (find_all : Bool) (pd : List Nat) (i : Nat) : Nat :=
  get_deck_score find_all (fillDeck pd i)

/-- Predicate match count of realization `i`. -/
def countAt (find_all : Bool) (pd : List Nat) (i : Nat) : Nat :=
  (test_deck_for_special_sequences find_all (fillDeck pd i)).2

/-- Sequence-type mask of realization `i`. -/
def bitsAt (find_all : Bool) (pd : List Nat) (i : Nat) : Nat :=
  (test_deck_for_special_sequences find_all (fillDeck pd i)).1

/-- The first `n` iterations of the 65536-realization loop. -/
def fbdRun (find_all : Bool) (pd dInit : List Nat) (n : Nat) : FbdState :=
  (List.range n).foldl (fbdStep find_all pd) ⟨0, TINY_DECK_SCORE, 0, dInit, true⟩

theorem fbdRun_succ (find_all : Bool) (pd dInit : List Nat) (n : Nat) :
    fbdRun find_all pd dInit (n + 1) =
      fbdStep find_all pd (fbdRun find_all pd dInit n) n := by
  rw [fbdRun, List.range_succ, List.foldl_append, List.foldl_cons, List.foldl_nil,
    fbdRun]

/-- How one loop iteration transforms a state already past the first
accepted realization: since the mask is never zero the realization is
always considered, and the bookkeeping splits on the count gate and on a
strict score improvement. -/
theorem fbdStep_eq (find_all : Bool) (pd : List Nat) (st : FbdState) (i : Nat)
    (hff : st.firstFound = false) :
    fbdStep find_all pd st i =
      if st.maxCount ≤ countAt find_all pd i then
        if st.best < scoreAt find_all pd i then
          ⟨countAt find_all pd i, scoreAt find_all pd i, bitsAt find_all pd i,
            fillDeck pd i, false⟩
        else ⟨countAt find_all pd i, st.best, st.bestBits, st.bestDeck, false⟩
      else st := by
  rw [fbdStep]
  simp only [hff, Bool.false_eq_true, if_false]
  rw [if_pos (test_deck_bits_ne_zero find_all (fillDeck pd i))]
  rfl

/-- How one loop iteration transforms the initial state (before any
accepted realization): the stored best is taken from `TINY_DECK_SCORE`. -/
theorem fbdStep_eq_first (find_all : Bool) (pd : List Nat) (st : FbdState) (i : Nat)
    (hff : st.firstFound = true) :
    fbdStep find_all pd st i =
      if st.maxCount ≤ countAt find_all pd i then
        if TINY_DECK_SCORE < scoreAt find_all pd i then
          ⟨countAt find_all pd i, scoreAt find_all pd i, bitsAt find_all pd i,
            fillDeck pd i, false⟩
        else ⟨countAt find_all pd i, TINY_DECK_SCORE, st.bestBits, st.bestDeck, false⟩
      else st := by
  rw [fbdStep]
  simp only [hff, eq_self_iff_true, if_true]
  rw [if_pos (test_deck_bits_ne_zero find_all (fillDeck pd i))]
  rfl

/-- Invariant of the realization loop after at least one iteration: the
stored best is the score of the earliest realization attaining the
maximum score seen so far, the stored mask and deck belong to that same
realization, the stored maximum count dominates all counts seen, and the
best score dominates the count-derived lower bound. -/
theorem fbdRun_inv (find_all : Bool) (pd dInit : List Nat) :
    ∀ n : Nat, 1 ≤ n →
      (fbdRun find_all pd dInit n).firstFound = false ∧
      (7 + (fbdRun find_all pd dInit n).maxCount) * 65536 ≤
        (fbdRun find_all pd dInit n).best ∧
      (∀ i < n, countAt find_all pd i ≤ (fbdRun find_all pd dInit n).maxCount) ∧
      (∀ i < n, scoreAt find_all pd i ≤ (fbdRun find_all pd dInit n).best) ∧
      ∃ i0 < n, (fbdRun find_all pd dInit n).best = scoreAt find_all pd i0 ∧
        (fbdRun find_all pd dInit n).bestBits = bitsAt find_all pd i0 ∧
        (fbdRun find_all pd dInit n).bestDeck = fillDeck pd i0 ∧
        ∀ i < i0, scoreAt find_all pd i < scoreAt find_all pd i0 := by
  intro n
  induction n with
  | zero => omega
  | succ m ih =>
    intro _
    rw [fbdRun_succ]
    rcases Nat.eq_zero_or_pos m with rfl | hm
    · have hrun0 : fbdRun find_all pd dInit 0 = ⟨0, TINY_DECK_SCORE, 0, dInit, true⟩ := rfl
      rw [hrun0, fbdStep_eq_first find_all pd _ 0 rfl]
      have hsc : scoreAt find_all pd 0 =
          65536 * (7 + countAt find_all pd 0) +
            deck_get_dup_count_score (fillDeck pd 0) :=
        get_deck_score_eq find_all (fillDeck pd 0)
      have hdup := dup_score_le (fillDeck pd 0)
      have hpos : TINY_DECK_SCORE < scoreAt find_all pd 0 := by
        rw [TINY_DECK_SCORE, hsc]
        omega
      rw [if_pos (Nat.zero_le _), if_pos hpos]
      refine ⟨?_, ?_, ?_, ?_, 0, Nat.zero_lt_succ 0, ?_, ?_, ?_, ?_⟩
      · with_reducible rfl
      · with_reducible show (7 + countAt find_all pd 0) * 65536 ≤ scoreAt find_all pd 0
        omega
      · intro i hi
        have hieq : i = 0 := by omega
        subst hieq
        with_reducible show countAt find_all pd 0 ≤ countAt find_all pd 0
        exact Nat.le_refl _
      · intro i hi
        have hieq : i = 0 := by omega
        subst hieq
        with_reducible show scoreAt find_all pd 0 ≤ scoreAt find_all pd 0
        exact Nat.le_refl _
      · with_reducible rfl
      · with_reducible rfl
      · with_reducible rfl
      · intro i hi
        exact absurd hi (Nat.not_lt_zero i)
    · obtain ⟨hff, hhi, hcnt, hsc, i0, hi0, hb, hbits, hdeck, hstrict⟩ := ih hm
      rw [fbdStep_eq find_all pd _ m hff]
      have hsm : scoreAt find_all pd m =
          65536 * (7 + countAt find_all pd m) +
            deck_get_dup_count_score (fillDeck pd m) :=
        get_deck_score_eq find_all (fillDeck pd m)
      have hdm := dup_score_le (fillDeck pd m)
      by_cases hc : (fbdRun find_all pd dInit m).maxCount ≤ countAt find_all pd m
      · rw [if_pos hc]
        by_cases hs : (fbdRun find_all pd dInit m).best < scoreAt find_all pd m
        · rw [if_pos hs]
          refine ⟨?_, ?_, ?_, ?_, m, by omega, ?_, ?_, ?_, ?_⟩
          · with_reducible rfl
          · with_reducible show (7 + countAt find_all pd m) * 65536 ≤ scoreAt find_all pd m
            omega
          · intro i hi
            with_reducible show countAt find_all pd i ≤ countAt find_all pd m
            rcases Nat.lt_or_ge i m with h' | h'
            · exact Nat.le_trans (hcnt i h') hc
            · have hieq : i = m := by omega
              subst hieq
              exact Nat.le_refl _
          · intro i hi
            with_reducible show scoreAt find_all pd i ≤ scoreAt find_all pd m
            rcases Nat.lt_or_ge i m with h' | h'
            · exact Nat.le_trans (hsc i h') (Nat.le_of_lt hs)
            · have hieq : i = m := by omega
              subst hieq
              exact Nat.le_refl _
          · with_reducible rfl
          · with_reducible rfl
          · with_reducible rfl
          · intro i hi
            exact Nat.lt_of_le_of_lt (hsc i hi) hs
        · rw [if_neg hs]
          refine ⟨?_, ?_, ?_, ?_, i0, by omega, ?_, ?_, ?_, hstrict⟩
          · with_reducible rfl
          · with_reducible show (7 + countAt find_all pd m) * 65536 ≤ (fbdRun find_all pd dInit m).best
            omega
          · intro i hi
            with_reducible show countAt find_all pd i ≤ countAt find_all pd m
            rcases Nat.lt_or_ge i m with h' | h'
            · exact Nat.le_trans (hcnt i h') hc
            · have hieq : i = m := by omega
              subst hieq
              exact Nat.le_refl _
          · intro i hi
            with_reducible show scoreAt find_all pd i ≤ (fbdRun find_all pd dInit m).best
            rcases Nat.lt_or_ge i m with h' | h'
            · exact hsc i h'
            · have hieq : i = m := by omega
              subst hieq
              omega
          · with_reducible show (fbdRun find_all pd dInit m).best = scoreAt find_all pd i0
            exact hb
          · with_reducible show (fbdRun find_all pd dInit m).bestBits = bitsAt find_all pd i0
            exact hbits
          · with_reducible show (fbdRun find_all pd dInit m).bestDeck = fillDeck pd i0
            exact hdeck
      · rw [if_neg hc]
        have hskip : scoreAt find_all pd m ≤ (fbdRun find_all pd dInit m).best := by
          rw [hsm]
          omega
        refine ⟨hff, hhi, ?_, ?_, i0, by omega, hb, hbits, hdeck, hstrict⟩
        · intro i hi
          rcases Nat.lt_or_ge i m with h' | h'
          · exact hcnt i h'
          · have hieq : i = m := by omega
            subst hieq
            omega
        · intro i hi
          rcases Nat.lt_or_ge i m with h' | h'
          · exact hsc i h'
          · have hieq : i = m := by omega
            subst hieq
            exact hskip

/-- C3.  Under the two entry checks of `find_best_deck_order` (no illegal
zero value code and every marker pair complete), the function inspects all
65536 realizations and passes back in `(deck_array, deck_score,
sequence_type_bits)` the data of one realization `i0` whose score
(predicate count in the high 16 bits, spread score in the low 16 bits) is
maximal over all 65536 realizations; every earlier realization scores
strictly lower, so ties keep the earliest realization and only a strictly
larger score ever replaces the stored best. -/
theorem C3_find_best_deck_order_maximal (find_all : Bool) (d0 : List Nat)
    (s : SeqInfoT)
    (h0 : deck_is_value_in_array 0 (get_deck_possibilities s) = false)
    (hmk : markerCountsOk (get_deck_possibilities s) = true) :
    ∃ i0 < 65536,
      (find_best_deck_order find_all d0 s).2.1 =
        scoreAt find_all (get_deck_possibilities s) i0 ∧
      (find_best_deck_order find_all d0 s).2.2 =
        bitsAt find_all (get_deck_possibilities s) i0 ∧
      (find_best_deck_order find_all d0 s).1 =
        fillDeck (get_deck_possibilities s) i0 ∧
      (∀ i < 65536, scoreAt find_all (get_deck_possibilities s) i ≤
        scoreAt find_all (get_deck_possibilities s) i0) ∧
      ∀ i < i0, scoreAt find_all (get_deck_possibilities s) i <
        scoreAt find_all (get_deck_possibilities s) i0 := by
  obtain ⟨hff, hhi, hcnt, hsc, i0, hi0, hb, hbits, hdeck, hstrict⟩ :=
    fbdRun_inv find_all (get_deck_possibilities s) (zeroFirst13 d0) 65536 (by omega)
  have hfb : find_best_deck_order find_all d0 s =
      ((fbdRun find_all (get_deck_possibilities s) (zeroFirst13 d0) 65536).bestDeck,
       (fbdRun find_all (get_deck_possibilities s) (zeroFirst13 d0) 65536).best,
       (fbdRun find_all (get_deck_possibilities s) (zeroFirst13 d0) 65536).bestBits) := by
    simp only [find_best_deck_order, fbdRun]
    rw [if_neg (by rw [h0]; exact Bool.false_ne_true), if_pos hmk]
  refine ⟨i0, hi0, ?_, ?_, ?_, ?_, hstrict⟩
  · rw [hfb]
    with_reducible exact hb
  · rw [hfb]
    with_reducible exact hbits
  · rw [hfb]
    with_reducible exact hdeck
  · intro i hi
    rw [← hb]
    exact hsc i hi

/-- Witness for C3 at a concrete record that passes both entry checks. -/
theorem C3_witness :
    ∃ i0 < 65536,
      (find_best_deck_order false (List.replicate 52 0) c2GoodRecord).2.1 =
        scoreAt false (get_deck_possibilities c2GoodRecord) i0 ∧
      (find_best_deck_order false (List.replicate 52 0) c2GoodRecord).2.2 =
        bitsAt false (get_deck_possibilities c2GoodRecord) i0 ∧
      (find_best_deck_order false (List.replicate 52 0) c2GoodRecord).1 =
        fillDeck (get_deck_possibilities c2GoodRecord) i0 ∧
      (∀ i < 65536, scoreAt false (get_deck_possibilities c2GoodRecord) i ≤
        scoreAt false (get_deck_possibilities c2GoodRecord) i0) ∧
      ∀ i < i0, scoreAt false (get_deck_possibilities c2GoodRecord) i <
        scoreAt false (get_deck_possibilities c2GoodRecord) i0 :=
  C3_find_best_deck_order_maximal false (List.replicate 52 0) c2GoodRecord
    (by decide) (by decide)

/-! ## C8: search_for_c4t_sequence (ultimate_search.c) -/

/-- One classification bin of the scan at ultimate_search.c lines
1520-1648: the single bits (ascending) whose position is outside
`c7k_c8k_diff` and matches the given high flag (`c7k` bit), odd flag
(`odd` bit) and suit code `(red << 1) | cd` (0 spade, 1 club, 2 heart,
3 diamond). -/
def c4tBin (red cd odd c7k diff : Nat) (hi od su : Nat) : List Nat :=
  ((List.range 52).filter (fun i =>
    ((diff >>> i) &&& 1 == 0) && ((c7k >>> i) &&& 1 == hi) &&
      ((odd >>> i) &&& 1 == od) &&
      (((((red >>> i) &&& 1) <<< 1) ||| ((cd >>> i) &&& 1)) == su))).map
    (fun i => 1 <<< i)

/-- The choice tuples `(oh0, oh1, el0, el1, eh, ol)` one suit's four
nested loops enumerate (ultimate_search.c lines 1651-1724), in loop
order: even-low index outermost, then even-high, odd-low, odd-high; the
second element of each pair is always the cyclically next array entry. -/
def suitTuples (el eh ol oh : List Nat) : List (Nat × Nat × Nat × Nat × Nat × Nat) :=
  (List.range el.length).flatMap (fun iel =>
    (List.range eh.length).flatMap (fun ieh =>
      (List.range ol.length).flatMap (fun iol =>
        (List.range oh.length).map (fun ioh =>
          (oh.getD ioh 0, oh.getD ((ioh + 1) % oh.length) 0,
           el.getD iel 0, el.getD ((iel + 1) % el.length) 0,
           eh.getD ieh 0, ol.getD iol 0)))))

/-- The choice tuples of one suit, built from its four bins. -/
def c4tTuples (red cd odd c7k diff su : Nat) : List (Nat × Nat × Nat × Nat × Nat × Nat) :=
  suitTuples (c4tBin red cd odd c7k diff 0 0 su) (c4tBin red cd odd c7k diff 1 0 su)
    (c4tBin red cd odd c7k diff 0 1 su) (c4tBin red cd odd c7k diff 1 1 su)

/-- One suit's transformation of `temp` (ultimate_search.c lines
1728-1774): clear the two odd-high bits and the even-high bit by 64-bit
subtraction, set the two even-low bits and the odd-low bit by OR. -/
def c4tSuitStep (temp : Nat) (p : Nat × Nat × Nat × Nat × Nat × Nat) : Nat :=
  let m := 18446744073709551616
  let t1 := (temp % m + m - p.1 % m) % m
  let t2 := (t1 + m - p.2.1 % m) % m
  let t3 := t2 ||| p.2.2.1
  let t4 := t3 ||| p.2.2.2.1
  let t5 := (t4 % m + m - p.2.2.2.2.1 % m) % m
  t5 ||| p.2.2.2.2.2

/-- Model of `search_for_c4t_sequence` (ultimate_search.c lines
1428-1803): lexicographic scan of the four suits' choice tuples in suit
order spade, heart, club, diamond; the first transformed sequence passing
`bit_has_unique_subsequences` is stored and TRUE returned (`some`),
otherwise FALSE (`none`). -/
def search_for_c4t_sequence (red cd odd c7k diff : Nat) : Option Nat :=
  (c4tTuples red cd odd c7k diff 0).findSome? (fun ps =>
    (c4tTuples red cd odd c7k diff 2).findSome? (fun ph =>
      (c4tTuples red cd odd c7k diff 1).findSome? (fun pc =>
        (c4tTuples red cd odd c7k diff 3).findSome? (fun pdm =>
          let t := c4tSuitStep (c4tSuitStep (c4tSuitStep (c4tSuitStep c7k ps) ph) pc) pdm
          if bit_has_unique_subsequences t then some t else none))))

/-- Modelled from the spec: a "combination of pair choices" in one suit
in the claim's sense — two distinct odd-high bits, two distinct even-low
bits, one even-high bit and one odd-low bit, all drawn from this suit's
bins (no cyclic-adjacency restriction). -/
def c4tChoiceOk (red cd odd c7k diff : Nat)
    (p : Nat × Nat × Nat × Nat × Nat × Nat) (su : Nat) : Bool :=
  (c4tBin red cd odd c7k diff 1 1 su).contains p.1 &&
    (c4tBin red cd odd c7k diff 1 1 su).contains p.2.1 && (p.1 != p.2.1) &&
    (c4tBin red cd odd c7k diff 0 0 su).contains p.2.2.1 &&
    (c4tBin red cd odd c7k diff 0 0 su).contains p.2.2.2.1 &&
    (p.2.2.1 != p.2.2.2.1) &&
    (c4tBin red cd odd c7k diff 1 0 su).contains p.2.2.2.2.1 &&
    (c4tBin red cd odd c7k diff 0 1 su).contains p.2.2.2.2.2

/-- The four per-suit general pair choices (spade, heart, club, diamond)
that refute the claim at the counterexample input: the spade odd-high
pair uses the non-adjacent bin entries bit 5 and bit 10. -/
def c8ceParts : List (Nat × Nat × Nat × Nat × Nat × Nat) :=
  [(0x20, 0x400, 0x1, 0x2, 0x800, 0x4),
   (0x100000, 0x400000, 0x100, 0x200, 0x800000, 0x4000),
   (0x2000, 0x10000, 0x8, 0x10, 0x20000, 0x80),
   (0x2000000, 0x4000000, 0x8000, 0x40000, 0x40000000, 0x80000)]

/-- C8 counterexample.  At this input a combination of legitimate pair
choices in all four suits (two odd-high bits cleared, two even-low bits
set, one even-high bit cleared, one odd-low bit set per suit, the diff
bits untouched) transforms `c7k` into the bracelet-valid sequence
0x218a392cd3df, yet `search_for_c4t_sequence` reports failure: its loops
only ever pair an array entry with its cyclic successor, so the
non-adjacent spade odd-high pair is never examined. -/
theorem C8_counterexample_adjacent_pairs_only :
    (c4tChoiceOk 0x46dcc300 0x460fa098 0x65974e4 0x218a7ff33c60 0xfffffb9200000
        (c8ceParts.getD 0 (0, 0, 0, 0, 0, 0)) 0 = true ∧
      c4tChoiceOk 0x46dcc300 0x460fa098 0x65974e4 0x218a7ff33c60 0xfffffb9200000
        (c8ceParts.getD 1 (0, 0, 0, 0, 0, 0)) 2 = true ∧
      c4tChoiceOk 0x46dcc300 0x460fa098 0x65974e4 0x218a7ff33c60 0xfffffb9200000
        (c8ceParts.getD 2 (0, 0, 0, 0, 0, 0)) 1 = true ∧
      c4tChoiceOk 0x46dcc300 0x460fa098 0x65974e4 0x218a7ff33c60 0xfffffb9200000
        (c8ceParts.getD 3 (0, 0, 0, 0, 0, 0)) 3 = true) ∧
    c8ceParts.foldl c4tSuitStep 0x218a7ff33c60 = 0x218a392cd3df ∧
    bit_has_unique_subsequences 0x218a392cd3df = true ∧
    search_for_c4t_sequence 0x46dcc300 0x460fa098 0x65974e4 0x218a7ff33c60
      0xfffffb9200000 = none := by
  refine ⟨⟨by decide, by decide, by decide, by decide⟩, by decide, by decide, by decide⟩

/-- C8 (amended).  `search_for_c4t_sequence` reports failure exactly when
no combination of *cyclically adjacent* pair choices enumerated by its
loops makes the transformed sequence bracelet-valid, and whatever it
returns on success is a bracelet-valid transform of one enumerated
combination. -/
theorem C8_amended_adjacent_search (red cd odd c7k diff : Nat) :
    (search_for_c4t_sequence red cd odd c7k diff = none ↔
      ∀ ps ∈ c4tTuples red cd odd c7k diff 0,
        ∀ ph ∈ c4tTuples red cd odd c7k diff 2,
          ∀ pc ∈ c4tTuples red cd odd c7k diff 1,
            ∀ pdm ∈ c4tTuples red cd odd c7k diff 3,
              bit_has_unique_subsequences
                (c4tSuitStep (c4tSuitStep (c4tSuitStep (c4tSuitStep c7k ps) ph) pc)
                  pdm) = false) ∧
    ∀ v, search_for_c4t_sequence red cd odd c7k diff = some v →
      bit_has_unique_subsequences v = true ∧
      ∃ ps ∈ c4tTuples red cd odd c7k diff 0,
        ∃ ph ∈ c4tTuples red cd odd c7k diff 2,
          ∃ pc ∈ c4tTuples red cd odd c7k diff 1,
            ∃ pdm ∈ c4tTuples red cd odd c7k diff 3,
              v = c4tSuitStep (c4tSuitStep (c4tSuitStep (c4tSuitStep c7k ps) ph) pc)
                pdm := by
  constructor
  · simp only [search_for_c4t_sequence, List.findSome?_eq_none_iff]
    constructor
    · intro h ps hps ph hph pc hpc pdm hpdm
      have h4 := h ps hps ph hph pc hpc pdm hpdm
      by_contra hv
      rw [Bool.not_eq_false] at hv
      rw [if_pos hv] at h4
      exact Option.some_ne_none _ h4
    · intro h ps hps ph hph pc hpc pdm hpdm
      rw [if_neg]
      rw [h ps hps ph hph pc hpc pdm hpdm]
      exact Bool.false_ne_true
  · intro v hv
    rw [search_for_c4t_sequence] at hv
    obtain ⟨ps, hps, h1⟩ := List.exists_of_findSome?_eq_some hv
    obtain ⟨ph, hph, h2⟩ := List.exists_of_findSome?_eq_some h1
    obtain ⟨pc, hpc, h3⟩ := List.exists_of_findSome?_eq_some h2
    obtain ⟨pdm, hpdm, h4⟩ := List.exists_of_findSome?_eq_some h3
    simp only at h4
    split at h4
    · rename_i ht
      have hveq : c4tSuitStep (c4tSuitStep (c4tSuitStep (c4tSuitStep c7k ps) ph) pc)
          pdm = v := by
        exact Option.some.inj h4
      refine ⟨?_, ps, hps, ph, hph, pc, hpc, pdm, hpdm, hveq.symm⟩
      rw [← hveq]
      exact ht
    · exact absurd h4 (Option.noConfusion)

/-- Witness for the amended C8 theorem at a concrete input on which the
search succeeds with its first enumerated combination. -/
theorem C8_amended_witness :
    bit_has_unique_subsequences 0x2392cd3d5dbf = true ∧
    ∃ ps ∈ c4tTuples 0x532805d80 0x52042d838 0x12282c664 0x2397ffffa240
        0xffffacd3d0000 0,
      ∃ ph ∈ c4tTuples 0x532805d80 0x52042d838 0x12282c664 0x2397ffffa240
          0xffffacd3d0000 2,
        ∃ pc ∈ c4tTuples 0x532805d80 0x52042d838 0x12282c664 0x2397ffffa240
            0xffffacd3d0000 1,
          ∃ pdm ∈ c4tTuples 0x532805d80 0x52042d838 0x12282c664 0x2397ffffa240
              0xffffacd3d0000 3,
            (0x2392cd3d5dbf : Nat) =
              c4tSuitStep (c4tSuitStep (c4tSuitStep
                (c4tSuitStep 0x2397ffffa240 ps) ph) pc) pdm :=
  (C8_amended_adjacent_search 0x532805d80 0x52042d838 0x12282c664 0x2397ffffa240
      0xffffacd3d0000).2 0x2392cd3d5dbf (by decide)

/-! ## C4: dbn_next (dbn_de_bruijn.c) -/

/-- One stack entry of the depth-first search (struct `dbn_move_t`). -/
structure DbnMove where
  store : Nat
  value : Nat
  length : Nat
  setBits : Nat
  bit : Nat
  deriving DecidableEq

/-- The accumulated subsequence bit store of the first `c` windows of
`v`: bit `winOf v j` is set for every window start `j < c`. -/
def winStore (v : Nat) : Nat → Nat
  | 0 => 0
  | j + 1 => winStore v j ||| (1 <<< winOf v j)

/-- The completion loop of `dbn_next` over the 5 wrap windows
(dbn_de_bruijn.c lines 330-350): each code must be absent from the store
so far (and not all-zero/all-one under the strict flag); the store is
extended as the loop advances. -/
def dbnWrapLoop (strict : Bool) : Nat → Nat → Nat → Bool
  | 0, _, _ => true
  | n + 1, temp, store =>
    if (store &&& (1 <<< (temp &&& 63)) == 0) &&
        (!strict || ((1 <<< (temp &&& 63) : Nat) != 1 &&
          (1 <<< (temp &&& 63) : Nat) != 1 <<< 63)) then
      dbnWrapLoop strict n (temp >>> 1) (store ||| (1 <<< (temp &&& 63)))
    else false

/-- Fuel-based model of `dbn_next` (dbn_de_bruijn.c lines 245-395) for
sequence length 52 and subsequence width 6: pop a move, prune on the
popcount target `k`, extend the value by one bit, check the newly closed
window against the store (with the strict all-same restriction), emit
when the length reaches 52 with the right popcount and the 5 wrap windows
also check out, and otherwise push the two child moves (the `1` bit first
while the length is below 6, the `0` bit first afterwards, the second
pushed child being popped first). -/
def dbn_next (k : Nat) (strict : Bool) : Nat → List DbnMove → Nat × List DbnMove
  | 0, stack => (0, stack)
  | _ + 1, [] => (0, [])
  | fuel + 1, mv :: rest =>
    let sbc := mv.setBits + mv.bit
    if k ≠ 0 ∧ k < sbc then dbn_next k strict fuel rest
    else
      let value := 2 * mv.value + mv.bit
      let length := mv.length + 1
      let sbit : Nat := 1 <<< (value &&& 63)
      let ok1 : Bool :=
        if 6 ≤ length then
          (mv.store &&& sbit == 0) &&
            (!strict || ((sbit != 1) && (sbit != 1 <<< 63)))
        else true
      let store := if 6 ≤ length then mv.store ||| sbit else mv.store
      if ok1 = false then dbn_next k strict fuel rest
      else if length = 52 ∧ (k = 0 ∨ sbc = k) then
        if dbnWrapLoop strict 5 ((value <<< 5) ||| (value >>> 47)) store then
          (value, rest)
        else dbn_next k strict fuel rest
      else
        let b0 : Nat := if length < 6 then 1 else 0
        dbn_next k strict fuel
          (⟨store, value, length, sbc, 1 - b0⟩ :: ⟨store, value, length, sbc, b0⟩ :: rest)

/-- Well-formedness of one stack entry: the bit is binary, the value fits
its length, the popcount and window store are consistent, the windows
closed so far are pairwise distinct, and under the strict flag none of
them is all-zero or all-one. -/
def moveOk (strict : Bool) (mv : DbnMove) : Bool :=
  decide (mv.bit ≤ 1) && decide (mv.value < 2 ^ mv.length) &&
    (mv.setBits == pcount mv.value) &&
    (mv.store == winStore mv.value (mv.length - 5)) &&
    decide (∀ i < mv.length, ∀ j < mv.length,
      (i + 6 ≤ mv.length ∧ j + 6 ≤ mv.length ∧ i ≠ j) →
        winOf mv.value i ≠ winOf mv.value j) &&
    (!strict || decide (∀ i < mv.length, i + 6 ≤ mv.length →
      winOf mv.value i ≠ 0 ∧ winOf mv.value i ≠ 63))

theorem moveOk_eq_true_iff (strict : Bool) (mv : DbnMove) :
    moveOk strict mv = true ↔
      mv.bit ≤ 1 ∧ mv.value < 2 ^ mv.length ∧ mv.setBits = pcount mv.value ∧
      mv.store = winStore mv.value (mv.length - 5) ∧
      (∀ i j, i + 6 ≤ mv.length → j + 6 ≤ mv.length → i ≠ j →
        winOf mv.value i ≠ winOf mv.value j) ∧
      (strict = true → ∀ i, i + 6 ≤ mv.length →
        winOf mv.value i ≠ 0 ∧ winOf mv.value i ≠ 63) := by
  simp only [moveOk, Bool.and_eq_true, decide_eq_true_eq, beq_iff_eq,
    Bool.or_eq_true, Bool.not_eq_true']
  constructor
  · rintro ⟨⟨⟨⟨⟨h1, h2⟩, h3⟩, h4⟩, h5⟩, h6⟩
    refine ⟨h1, h2, h3, h4, ?_, ?_⟩
    · intro i j hi hj hne
      exact h5 i (by omega) j (by omega) ⟨hi, hj, hne⟩
    · intro hs i hi
      rcases h6 with h6 | h6
      · rw [hs] at h6
        exact absurd h6 (by simp)
      · exact h6 i (by omega) hi
  · rintro ⟨h1, h2, h3, h4, h5, h6⟩
    refine ⟨⟨⟨⟨⟨h1, h2⟩, h3⟩, h4⟩, ?_⟩, ?_⟩
    · intro i _ j _ hc
      exact h5 i j hc.1 hc.2.1 hc.2.2
    · cases hs : strict
      · exact Or.inl rfl
      · exact Or.inr (fun i _ hi => h6 hs i hi)

theorem shiftRight_succ_double (a b j : Nat) (hb : b ≤ 1) :
    (2 * a + b) >>> (j + 1) = a >>> j := by
  have h1 : (2 * a + b) >>> 1 = a := by
    rw [Nat.shiftRight_one]
    omega
  rw [show j + 1 = 1 + j from by omega, Nat.shiftRight_add, h1]

theorem winOf_double (a b j : Nat) (hb : b ≤ 1) :
    winOf (2 * a + b) (j + 1) = winOf a j := by
  rw [winOf, winOf, shiftRight_succ_double a b j hb]

theorem winStore_testBit (v : Nat) :
    ∀ c u, (winStore v c).testBit u = true ↔ ∃ j < c, winOf v j = u := by
  intro c
  induction c with
  | zero =>
    intro u
    simp [winStore]
  | succ c ih =>
    intro u
    rw [winStore, testBit_or_one_shiftLeft]
    simp only [Bool.or_eq_true, decide_eq_true_eq, ih]
    constructor
    · rintro (⟨j, hj, he⟩ | he)
      · exact ⟨j, by omega, he⟩
      · exact ⟨c, by omega, he⟩
    · rintro ⟨j, hj, he⟩
      rcases Nat.lt_or_ge j c with h' | h'
      · exact Or.inl ⟨j, h', he⟩
      · have hjc : j = c := by omega
        subst hjc
        exact Or.inr he

theorem winStore_double (a b : Nat) (hb : b ≤ 1) :
    ∀ c, winStore (2 * a + b) (c + 1) =
      winStore a c ||| (1 <<< winOf (2 * a + b) 0) := by
  intro c
  induction c with
  | zero =>
    show winStore (2 * a + b) 0 ||| _ = winStore a 0 ||| _
    rfl
  | succ c ih =>
    show winStore (2 * a + b) (c + 1) ||| (1 <<< winOf (2 * a + b) (c + 1)) = _
    rw [ih, winOf_double a b c hb]
    show _ = (winStore a c ||| (1 <<< winOf a c)) ||| _
    rw [Nat.or_assoc, Nat.or_assoc,
      Nat.or_comm (1 <<< winOf (2 * a + b) 0) (1 <<< winOf a c)]

theorem one_shiftLeft_inj {a b : Nat} : (1 : Nat) <<< a = 1 <<< b ↔ a = b := by
  rw [Nat.one_shiftLeft, Nat.one_shiftLeft]
  constructor
  · intro h
    exact Nat.pow_right_injective (Nat.le_refl 2) h
  · rintro rfl
    rfl

/-- For window starts that fit inside the 52 bits, the cyclic window is
the plain window. -/
theorem cyclWin_low (v i : Nat) (h : i + 6 ≤ 52) : cyclWin v i = winOf v i := by
  apply Nat.eq_of_testBit_eq
  intro u
  have h63 : (63 : Nat) = 2 ^ 6 - 1 := by norm_num
  simp only [cyclWin, winOf, h63, Nat.testBit_and, Nat.testBit_two_pow_sub_one,
    Nat.testBit_shiftRight, Nat.testBit_or, Nat.testBit_shiftLeft]
  rcases Nat.lt_or_ge u 6 with hu | hu
  · simp [hu, show ¬(52 ≤ i + u) from by omega]
  · simp [show ¬(u < 6) from by omega]

/-- The `i`-th window of the wrap word `(v << 5) | (v >> 47)` is the
cyclic window of `v` starting at `47 + i`, for `i < 5`. -/
theorem wrapTemp_win (v t : Nat) (_ht : t < 5) :
    winOf ((v <<< 5) ||| (v >>> 47)) t = cyclWin v (47 + t) := by
  apply Nat.eq_of_testBit_eq
  intro u
  have h63 : (63 : Nat) = 2 ^ 6 - 1 := by norm_num
  simp only [cyclWin, winOf, h63, Nat.testBit_and, Nat.testBit_two_pow_sub_one,
    Nat.testBit_shiftRight, Nat.testBit_or, Nat.testBit_shiftLeft]
  rcases Nat.lt_or_ge u 6 with hu | hu
  · rcases Nat.lt_or_ge (t + u) 5 with h5 | h5
    · have e1 : 47 + (t + u) = 47 + t + u := by omega
      simp [hu, show ¬(5 ≤ t + u) from by omega, e1,
        show ¬(52 ≤ 47 + t + u) from by omega]
    · have e1 : 47 + (t + u) = 47 + t + u := by omega
      have e2 : 47 + t + u - 52 = t + u - 5 := by omega
      simp only [hu, decide_True, Bool.true_and, show (5 : Nat) ≤ t + u from h5,
        decide_eq_true_eq, if_pos, e1, e2, show (52 : Nat) ≤ 47 + t + u from by omega]
      simp [Bool.or_comm]
  · simp [show ¬(u < 6) from by omega]

/-- Soundness of the wrap-completion loop: on success, each of the `n`
codes is absent from the incoming store, the codes are pairwise distinct,
and under the strict flag none is all-zero or all-one. -/
theorem dbnWrapLoop_sound (strict : Bool) :
    ∀ n temp store : Nat, dbnWrapLoop strict n temp store = true →
      ∀ t < n, (store &&& (1 <<< winOf temp t) = 0 ∧
        (∀ s < t, winOf temp s ≠ winOf temp t)) ∧
        (strict = true → winOf temp t ≠ 0 ∧ winOf temp t ≠ 63) := by
  intro n
  induction n with
  | zero =>
    intro temp store _ t ht
    omega
  | succ n ih =>
    intro temp store h t ht
    rw [dbnWrapLoop] at h
    split at h
    · rename_i hcond
      rw [Bool.and_eq_true] at hcond
      have hc0 : store &&& (1 <<< (temp &&& 63)) = 0 := by
        have := hcond.1
        rw [beq_iff_eq] at this
        exact this
      have hstr : strict = true → (temp &&& 63) ≠ 0 ∧ (temp &&& 63) ≠ 63 := by
        intro hs
        rw [hs] at hcond
        have h2 := hcond.2
        simp only [Bool.not_true, Bool.false_or, Bool.and_eq_true, bne_iff_ne] at h2
        constructor
        · intro he
          apply h2.1
          rw [he]
          rfl
        · intro he
          apply h2.2
          rw [he]
      cases t with
      | zero =>
        have hw0 : winOf temp 0 = temp &&& 63 := rfl
        refine ⟨⟨by rw [hw0]; exact hc0, fun s hs => by omega⟩, ?_⟩
        intro hs
        rw [hw0]
        exact hstr hs
      | succ t =>
        have hih := ih (temp >>> 1) (store ||| (1 <<< (temp &&& 63))) h t (by omega)
        have hwshift : ∀ s, winOf (temp >>> 1) s = winOf temp (s + 1) :=
          fun s => winOf_shiftRight_one temp s
        refine ⟨⟨?_, ?_⟩, ?_⟩
        · have h1 := hih.1.1
          rw [hwshift t] at h1
          rw [and_eq_zero_iff_testBit] at h1 ⊢
          intro j
          rcases h1 j with h' | h'
          · rw [Nat.testBit_or, Bool.or_eq_false_iff] at h'
            exact Or.inl h'.1
          · exact Or.inr h'
        · intro s hs
          cases s with
          | zero =>
            have hw0 : winOf temp 0 = temp &&& 63 := rfl
            have h1 := hih.1.1
            rw [hwshift t] at h1
            intro he
            rw [and_eq_zero_iff_testBit] at h1
            have hbit : (store ||| (1 <<< (temp &&& 63))).testBit (winOf temp (t + 1)) =
                true := by
              rw [testBit_or_one_shiftLeft]
              rw [hw0] at he
              simp [he]
            have hone : ((1 : Nat) <<< winOf temp (t + 1)).testBit
                (winOf temp (t + 1)) = true := by
              rw [Nat.one_shiftLeft, Nat.testBit_two_pow]
              simp
            rcases h1 (winOf temp (t + 1)) with h' | h'
            · rw [h'] at hbit
              exact absurd hbit (by simp)
            · rw [h'] at hone
              exact absurd hone (by simp)
          | succ s =>
            have h2 := hih.1.2 s (by omega)
            rw [hwshift s, hwshift t] at h2
            exact h2
        · intro hs
          have h3 := hih.2 hs
          rw [hwshift t] at h3
          exact h3
    · exact absurd h (by simp)

/-- Extending a well-formed prefix by one bit: all the per-move
invariants carry over to the extended value once the new window passes
the store check. -/
theorem dbnStep_facts (strict : Bool) (a b L st sb : Nat)
    (hb : b ≤ 1) (ha : a < 2 ^ L) (hsb : sb = pcount a)
    (hst : st = winStore a (L - 5))
    (hdist : ∀ i j, i + 6 ≤ L → j + 6 ≤ L → i ≠ j → winOf a i ≠ winOf a j)
    (hstrict : strict = true → ∀ i, i + 6 ≤ L → winOf a i ≠ 0 ∧ winOf a i ≠ 63)
    (hok1 : 6 ≤ L + 1 → st &&& (1 <<< ((2 * a + b) &&& 63)) = 0 ∧
      (strict = true → ((1 <<< ((2 * a + b) &&& 63)) : Nat) ≠ 1 ∧
        ((1 <<< ((2 * a + b) &&& 63)) : Nat) ≠ 1 <<< 63)) :
    2 * a + b < 2 ^ (L + 1) ∧
    pcount (2 * a + b) = sb + b ∧
    winStore (2 * a + b) (L + 1 - 5) =
      (if 6 ≤ L + 1 then st ||| (1 <<< ((2 * a + b) &&& 63)) else st) ∧
    (∀ i j, i + 6 ≤ L + 1 → j + 6 ≤ L + 1 → i ≠ j →
      winOf (2 * a + b) i ≠ winOf (2 * a + b) j) ∧
    (strict = true → ∀ i, i + 6 ≤ L + 1 →
      winOf (2 * a + b) i ≠ 0 ∧ winOf (2 * a + b) i ≠ 63) := by
  have hw0 : winOf (2 * a + b) 0 = (2 * a + b) &&& 63 := by
    rw [winOf, Nat.shiftRight_zero]
  have hnotin : 6 ≤ L + 1 → ∀ s, s + 6 ≤ L → winOf a s ≠ (2 * a + b) &&& 63 := by
    intro h6 s hs
    have h1 := (hok1 h6).1
    rw [hst] at h1
    have h2 : (winStore a (L - 5)).testBit ((2 * a + b) &&& 63) = false := by
      have h3 : (winStore a (L - 5) &&& (1 <<< ((2 * a + b) &&& 63)) == 0) = true :=
        beq_iff_eq.mpr h1
      rw [and_one_shiftLeft_eq_zero] at h3
      simpa using h3
    intro he
    have h4 : ∃ j < L - 5, winOf a j = (2 * a + b) &&& 63 := ⟨s, by omega, he⟩
    rw [← winStore_testBit a (L - 5) ((2 * a + b) &&& 63)] at h4
    rw [h2] at h4
    exact absurd h4 (by simp)
  refine ⟨?_, ?_, ?_, ?_, ?_⟩
  · have hp : 2 ^ (L + 1) = 2 ^ L * 2 := Nat.pow_succ 2 L
    omega
  · rw [pcount_two_mul_add a b hb, hsb]
  · rcases Nat.lt_or_ge L 5 with h5 | h5
    · rw [if_neg (by omega)]
      have e1 : L + 1 - 5 = 0 := by omega
      have e2 : L - 5 = 0 := by omega
      rw [e1, hst, e2]
      rfl
    · rw [if_pos (by omega)]
      have e1 : L + 1 - 5 = (L - 5) + 1 := by omega
      rw [e1, winStore_double a b hb (L - 5), hst, hw0]
  · intro i j hi hj hne
    cases i with
    | zero =>
      cases j with
      | zero => omega
      | succ s =>
        rw [hw0, winOf_double a b s hb]
        exact fun he => hnotin (by omega) s (by omega) he.symm
    | succ s =>
      cases j with
      | zero =>
        rw [hw0, winOf_double a b s hb]
        exact hnotin (by omega) s (by omega)
      | succ u =>
        rw [winOf_double a b s hb, winOf_double a b u hb]
        exact hdist s u (by omega) (by omega) (by omega)
  · intro hs i hi
    cases i with
    | zero =>
      rw [hw0]
      have h2 := (hok1 (by omega)).2 hs
      constructor
      · intro he
        apply h2.1
        rw [he]
        rfl
      · intro he
        apply h2.2
        rw [he]
    | succ s =>
      rw [winOf_double a b s hb]
      exact hstrict hs s (by omega)

/-- A completed 52-bit value whose 47 prefix windows are pairwise
distinct and whose wrap completion loop succeeds on the store of those
windows is bracelet-valid; under the strict flag no cyclic window is
all-zero or all-one. -/
theorem dbn_emit_sound (strict : Bool) (v : Nat)
    (hdist : ∀ i j, i + 6 ≤ 52 → j + 6 ≤ 52 → i ≠ j → winOf v i ≠ winOf v j)
    (hstrict : strict = true → ∀ i, i + 6 ≤ 52 → winOf v i ≠ 0 ∧ winOf v i ≠ 63)
    (hwrap : dbnWrapLoop strict 5 ((v <<< 5) ||| (v >>> 47)) (winStore v 47) = true) :
    bit_has_unique_subsequences v = true ∧
    (strict = true → ∀ i < 52, cyclWin v i ≠ 0 ∧ cyclWin v i ≠ 63) := by
  have hws := dbnWrapLoop_sound strict 5 ((v <<< 5) ||| (v >>> 47)) (winStore v 47)
    hwrap
  have hcross : ∀ i, i + 6 ≤ 52 → ∀ t, t < 5 →
      winOf v i ≠ winOf ((v <<< 5) ||| (v >>> 47)) t := by
    intro i hi t ht he
    have habs := (hws t ht).1.1
    rw [and_eq_zero_iff_testBit] at habs
    have hmem : (winStore v 47).testBit (winOf ((v <<< 5) ||| (v >>> 47)) t) =
        true := by
      rw [winStore_testBit]
      exact ⟨i, by omega, he⟩
    rcases habs (winOf ((v <<< 5) ||| (v >>> 47)) t) with h' | h'
    · rw [h'] at hmem
      exact absurd hmem (by simp)
    · have hone : ((1 : Nat) <<< winOf ((v <<< 5) ||| (v >>> 47)) t).testBit
          (winOf ((v <<< 5) ||| (v >>> 47)) t) = true := by
        rw [Nat.one_shiftLeft, Nat.testBit_two_pow]
        simp
      rw [h'] at hone
      exact absurd hone (by simp)
  have hwd : ∀ s t, s < 5 → t < 5 → s ≠ t →
      winOf ((v <<< 5) ||| (v >>> 47)) s ≠ winOf ((v <<< 5) ||| (v >>> 47)) t := by
    intro s t hs ht hne
    rcases Nat.lt_or_ge s t with h' | h'
    · exact (hws t ht).1.2 s h'
    · have hts : t < s := by omega
      exact fun he => (hws s hs).1.2 t hts he.symm
  have hcyc : ∀ i < 52, ∀ j < 52, i ≠ j → cyclWin v i ≠ cyclWin v j := by
    intro i hi j hj hne
    rcases Nat.lt_or_ge i 47 with h47i | h47i <;>
      rcases Nat.lt_or_ge j 47 with h47j | h47j
    · rw [cyclWin_low v i (by omega), cyclWin_low v j (by omega)]
      exact hdist i j (by omega) (by omega) hne
    · have hjw : cyclWin v j = winOf ((v <<< 5) ||| (v >>> 47)) (j - 47) :=
        calc cyclWin v j = cyclWin v (47 + (j - 47)) := by
              rw [show 47 + (j - 47) = j from by omega]
          _ = winOf ((v <<< 5) ||| (v >>> 47)) (j - 47) :=
              (wrapTemp_win v (j - 47) (by omega)).symm
      rw [cyclWin_low v i (by omega), hjw]
      exact hcross i (by omega) (j - 47) (by omega)
    · have hiw : cyclWin v i = winOf ((v <<< 5) ||| (v >>> 47)) (i - 47) :=
        calc cyclWin v i = cyclWin v (47 + (i - 47)) := by
              rw [show 47 + (i - 47) = i from by omega]
          _ = winOf ((v <<< 5) ||| (v >>> 47)) (i - 47) :=
              (wrapTemp_win v (i - 47) (by omega)).symm
      rw [cyclWin_low v j (by omega), hiw]
      exact fun he => hcross j (by omega) (i - 47) (by omega) he.symm
    · have hiw : cyclWin v i = winOf ((v <<< 5) ||| (v >>> 47)) (i - 47) :=
        calc cyclWin v i = cyclWin v (47 + (i - 47)) := by
              rw [show 47 + (i - 47) = i from by omega]
          _ = winOf ((v <<< 5) ||| (v >>> 47)) (i - 47) :=
              (wrapTemp_win v (i - 47) (by omega)).symm
      have hjw : cyclWin v j = winOf ((v <<< 5) ||| (v >>> 47)) (j - 47) :=
        calc cyclWin v j = cyclWin v (47 + (j - 47)) := by
              rw [show 47 + (j - 47) = j from by omega]
          _ = winOf ((v <<< 5) ||| (v >>> 47)) (j - 47) :=
              (wrapTemp_win v (j - 47) (by omega)).symm
      rw [hiw, hjw]
      exact hwd (i - 47) (j - 47) (by omega) (by omega) (by omega)
  refine ⟨?_, ?_⟩
  · rw [bit_has_unique_subsequences_eq_true_iff]
    intro i hi j hj
    rw [winOf_extSeq_eq_cyclWin (by omega), winOf_extSeq_eq_cyclWin hi]
    exact hcyc j (by omega) i hi (by omega)
  · intro hs i hi
    rcases Nat.lt_or_ge i 47 with h47 | h47
    · rw [cyclWin_low v i (by omega)]
      exact hstrict hs i (by omega)
    · have hiw : cyclWin v i = winOf ((v <<< 5) ||| (v >>> 47)) (i - 47) :=
        calc cyclWin v i = cyclWin v (47 + (i - 47)) := by
              rw [show 47 + (i - 47) = i from by omega]
          _ = winOf ((v <<< 5) ||| (v >>> 47)) (i - 47) :=
              (wrapTemp_win v (i - 47) (by omega)).symm
      rw [hiw]
      exact (hws (i - 47) (by omega)).2 hs

/-- C4.  For sequence length 52, popcount target `k` and either strict
setting, every nonzero value emitted by `dbn_next` from a well-formed
stack is a 52-bit bracelet-valid sequence (all 52 cyclic length-6
windows pairwise distinct, the 5 wrap windows included); when `k` is
nonzero its popcount is exactly `k` (when `k = 0` no popcount constraint
is enforced, so sequences of every population are admitted); and under
`DBN_REQUIRE_BITS_NOT_ALL_THE_SAME` no cyclic window is all-zero or
all-one. -/
theorem C4_dbn_next_emits_valid_bracelets (k : Nat) (strict : Bool) :
    ∀ (fuel : Nat) (stack : List DbnMove),
      (∀ mv ∈ stack, moveOk strict mv = true) →
      ∀ v rest, dbn_next k strict fuel stack = (v, rest) → v ≠ 0 →
        v < 2 ^ 52 ∧ bit_has_unique_subsequences v = true ∧
        (k ≠ 0 → pcount v = k) ∧
        (strict = true → ∀ i < 52, cyclWin v i ≠ 0 ∧ cyclWin v i ≠ 63) := by
  intro fuel
  induction fuel with
  | zero =>
    intro stack _ v rest hres hv
    rw [dbn_next] at hres
    injection hres with h1 _
    exact absurd h1.symm hv
  | succ fuel ih =>
    intro stack hstk v rest hres hv
    cases stack with
    | nil =>
      rw [dbn_next] at hres
      injection hres with h1 _
      exact absurd h1.symm hv
    | cons mv tl =>
      have htl : ∀ mv' ∈ tl, moveOk strict mv' = true :=
        fun mv' h' => hstk mv' (List.mem_cons_of_mem _ h')
      obtain ⟨hb, ha, hsb, hst, hd, hstr⟩ :=
        (moveOk_eq_true_iff strict mv).mp (hstk mv (List.mem_cons_self _ _))
      simp only [dbn_next] at hres
      split at hres
      · exact ih tl htl v rest hres hv
      · split at hres
        · -- 6 ≤ mv.length + 1
          rename_i h6
          split at hres
          · exact ih tl htl v rest hres hv
          · rename_i hok1ne
            have hok1 : ((mv.store &&& 1 <<< (2 * mv.value + mv.bit &&& 63) == 0) &&
                (!strict || (1 <<< (2 * mv.value + mv.bit &&& 63) : Nat) != 1 &&
                  (1 <<< (2 * mv.value + mv.bit &&& 63) : Nat) != 1 <<< 63)) = true := by
              cases hcase : ((mv.store &&& 1 <<< (2 * mv.value + mv.bit &&& 63) == 0) &&
                (!strict || (1 <<< (2 * mv.value + mv.bit &&& 63) : Nat) != 1 &&
                  (1 <<< (2 * mv.value + mv.bit &&& 63) : Nat) != 1 <<< 63))
              · exact absurd hcase hok1ne
              · rfl
            have hok1P : 6 ≤ mv.length + 1 →
                mv.store &&& (1 <<< ((2 * mv.value + mv.bit) &&& 63)) = 0 ∧
                (strict = true →
                  ((1 <<< ((2 * mv.value + mv.bit) &&& 63)) : Nat) ≠ 1 ∧
                  ((1 <<< ((2 * mv.value + mv.bit) &&& 63)) : Nat) ≠ 1 <<< 63) := by
              intro _
              rw [Bool.and_eq_true] at hok1
              refine ⟨beq_iff_eq.mp hok1.1, ?_⟩
              intro hs
              have h2 := hok1.2
              rw [hs] at h2
              simp only [Bool.not_true, Bool.false_or, Bool.and_eq_true,
                bne_iff_ne] at h2
              exact h2
            obtain ⟨hlt, hpc, hws, hdist, hstrict2⟩ :=
              dbnStep_facts strict mv.value mv.bit mv.length mv.store
                mv.setBits hb ha hsb hst hd hstr hok1P
            rw [if_pos h6] at hws
            split at hres
            · rename_i hc52
              split at hres
              · rename_i hwrapT
                injection hres with h1 h2
                have hL : mv.length + 1 = 52 := hc52.1
                rw [← h1]
                have hlt52 : 2 * mv.value + mv.bit < 2 ^ 52 := by
                  rw [← hL]
                  exact hlt
                have hws47 : winStore (2 * mv.value + mv.bit) 47 =
                    mv.store ||| (1 <<< ((2 * mv.value + mv.bit) &&& 63)) := by
                  have h3 := hws
                  rw [hL] at h3
                  norm_num at h3
                  exact h3
                have hdist52 : ∀ i j, i + 6 ≤ 52 → j + 6 ≤ 52 → i ≠ j →
                    winOf (2 * mv.value + mv.bit) i ≠
                      winOf (2 * mv.value + mv.bit) j := by
                  rw [← hL]
                  exact hdist
                have hstrict52 : strict = true → ∀ i, i + 6 ≤ 52 →
                    winOf (2 * mv.value + mv.bit) i ≠ 0 ∧
                    winOf (2 * mv.value + mv.bit) i ≠ 63 := by
                  rw [← hL]
                  exact hstrict2
                have hwrap' : dbnWrapLoop strict 5
                    ((2 * mv.value + mv.bit) <<< 5 |||
                      (2 * mv.value + mv.bit) >>> 47)
                    (winStore (2 * mv.value + mv.bit) 47) = true := by
                  rw [hws47]
                  exact hwrapT
                have hemit := dbn_emit_sound strict (2 * mv.value + mv.bit)
                  hdist52 hstrict52 hwrap'
                refine ⟨hlt52, hemit.1, ?_, hemit.2⟩
                intro hk
                rcases hc52.2 with h' | h'
                · exact absurd h' hk
                · rw [hpc]
                  exact h'
              · exact ih tl htl v rest hres hv
            · refine ih _ ?_ v rest hres hv
              intro mv' h'
              have hmk : ∀ bx : Nat, bx ≤ 1 → moveOk strict
                  ⟨mv.store ||| 1 <<< (2 * mv.value + mv.bit &&& 63),
                    2 * mv.value + mv.bit, mv.length + 1,
                    mv.setBits + mv.bit, bx⟩ = true := by
                intro bx hbx
                rw [moveOk_eq_true_iff]
                exact ⟨hbx, hlt, hpc.symm, hws.symm, hdist, hstrict2⟩
              rcases List.mem_cons.mp h' with h'' | h''
              · rw [h'']
                apply hmk
                split <;> omega
              · rcases List.mem_cons.mp h'' with h3 | h3
                · rw [h3]
                  apply hmk
                  split <;> omega
                · exact htl mv' h3
        · -- ¬ 6 ≤ mv.length + 1: the window check is vacuous
          rename_i h6
          rw [if_neg (by simp : ¬(true = false))] at hres
          have hok1P : 6 ≤ mv.length + 1 →
              mv.store &&& (1 <<< ((2 * mv.value + mv.bit) &&& 63)) = 0 ∧
              (strict = true →
                ((1 <<< ((2 * mv.value + mv.bit) &&& 63)) : Nat) ≠ 1 ∧
                ((1 <<< ((2 * mv.value + mv.bit) &&& 63)) : Nat) ≠ 1 <<< 63) :=
            fun hcon => absurd hcon h6
          obtain ⟨hlt, hpc, hws, hdist, hstrict2⟩ :=
            dbnStep_facts strict mv.value mv.bit mv.length mv.store
              mv.setBits hb ha hsb hst hd hstr hok1P
          rw [if_neg h6] at hws
          split at hres
          · rename_i hc52
            exact absurd hc52.1 (by omega)
          · refine ih _ ?_ v rest hres hv
            intro mv' h'
            have hmk : ∀ bx : Nat, bx ≤ 1 → moveOk strict
                ⟨mv.store, 2 * mv.value + mv.bit, mv.length + 1,
                  mv.setBits + mv.bit, bx⟩ = true := by
              intro bx hbx
              rw [moveOk_eq_true_iff]
              exact ⟨hbx, hlt, hpc.symm, hws.symm, hdist, hstrict2⟩
            rcases List.mem_cons.mp h' with h'' | h''
            · rw [h'']
              apply hmk
              split <;> omega
            · rcases List.mem_cons.mp h'' with h3 | h3
              · rw [h3]
                apply hmk
                split <;> omega
              · exact htl mv' h3

/-- Witness for C4: one well-formed stack entry at length 51 whose
extension emits the bracelet-valid sequence 0x218a393d5dbf with
popcount 26. -/
theorem C4_witness :
    (0x218a393d5dbf : Nat) < 2 ^ 52 ∧
    bit_has_unique_subsequences 0x218a393d5dbf = true ∧
    ((26 : Nat) ≠ 0 → pcount 0x218a393d5dbf = 26) ∧
    (false = true → ∀ i < 52,
      cyclWin 0x218a393d5dbf i ≠ 0 ∧ cyclWin 0x218a393d5dbf i ≠ 63) :=
  C4_dbn_next_emits_valid_bracelets 26 false 1
    [⟨0x2ee6ed9ef9bbd7ff, 0x10c51c9eaedf, 51, 25, 1⟩]
    (by decide) 0x218a393d5dbf [] (by decide) (by decide)

end ConMol
